import Mathlib

/-!
Verification development for the noodles CRAM codec core: the rANS 4x8
entropy coder, the feature-based CIGAR and quality-score reconstruction,
and the container reader. Definitions are shallow embeddings of the Rust
sources under noodles-cram; definitions standing in for repository code
that is not part of the source snapshot carry a doc comment starting with
the words Modelled from the spec.
-/

namespace NoodlesVerify

/-- Machine word bound of the usize type on 64-bit targets; Position is a
NonZeroUsize and Position.checked_add fails exactly when the sum exceeds
this bound. -/
def USIZE_MAX : Nat := 2 ^ 64 - 1

/-- Error and panic outcomes of the embedded functions. A Rust panic
(expect on a checked_add overflow, or the todo macro) is modelled as an
error value, as is an io error from a truncated stream. -/
inductive Err
  | eof
  | addOverflow
  | todo
  | fuel
  | invalidData
deriving DecidableEq, Repr

/-- Modelled from the spec: the SAM CIGAR operation kinds consumed by the
record reconstruction. The noodles-sam module defining them is part of the
repository but not of the source snapshot. -/
inductive Kind
  | Match
  | Insertion
  | Deletion
  | Skip
  | SoftClip
  | HardClip
  | Pad
  | SequenceMatch
  | SequenceMismatch
deriving DecidableEq, Repr

/-- Modelled from the spec: which CIGAR operation kinds consume read bases
(Kind::consumes_read in noodles-sam; spec section 4.3). -/
def Kind.consumes_read : Kind → Bool
  | Kind.Match => true
  | Kind.Insertion => true
  | Kind.SoftClip => true
  | Kind.SequenceMatch => true
  | Kind.SequenceMismatch => true
  | _ => false

/-- Modelled from the spec: the record feature variants (the record feature
module is not part of the source snapshot; the variant set and payloads
follow the spec data model, the writer-side Feature enum under src, and the
pattern matches in record/features/cigar.rs). Positions are 1-based. -/
inductive Feature
  | Bases (position : Nat) (bases : List Nat)
  | Scores (position : Nat) (quality_scores : List Nat)
  | ReadBase (position : Nat) (base : Nat) (quality_score : Nat)
  | Substitution (position : Nat) (value : Nat)
  | Insertion (position : Nat) (bases : List Nat)
  | Deletion (position : Nat) (len : Nat)
  | InsertBase (position : Nat) (base : Nat)
  | QualityScore (position : Nat) (quality_score : Nat)
  | ReferenceSkip (position : Nat) (len : Nat)
  | SoftClip (position : Nat) (bases : List Nat)
  | Padding (position : Nat) (len : Nat)
  | HardClip (position : Nat) (len : Nat)
deriving DecidableEq, Repr

/-- Feature::position. -/
def Feature.position : Feature → Nat
  | Feature.Bases position _ => position
  | Feature.Scores position _ => position
  | Feature.ReadBase position _ _ => position
  | Feature.Substitution position _ => position
  | Feature.Insertion position _ => position
  | Feature.Deletion position _ => position
  | Feature.InsertBase position _ => position
  | Feature.QualityScore position _ => position
  | Feature.ReferenceSkip position _ => position
  | Feature.SoftClip position _ => position
  | Feature.Padding position _ => position
  | Feature.HardClip position _ => position

/-- A CIGAR operation (noodles-sam Op). -/
structure Op where
  kind : Kind
  len : Nat
deriving DecidableEq, Repr

/-- Op::new. -/
def Op.new (kind : Kind) (len : Nat) : Op := { kind := kind, len := len }

/-- The iterator state of record/features/cigar.rs: remaining features, the
declared read length, the 1-based read cursor, and a queued operation. -/
structure Cigar where
  features : List Feature
  read_length : Nat
  read_position : Nat
  next_op : Option (Kind × Nat)
deriving DecidableEq, Repr

/-- Cigar::new: cursor starts at Position::MIN = 1, nothing queued. -/
def Cigar.new (features : List Feature) (read_length : Nat) : Cigar :=
  { features := features, read_length := read_length, read_position := 1, next_op := none }

/-- Cigar::consume_read: checked_add on the Position cursor; the source
calls expect on the result, so an overflow past usize::MAX is a panic,
modelled as none. -/
def Cigar.consume_read (c : Cigar) (len : Nat) : Option Cigar :=
  if c.read_position + len ≤ USIZE_MAX then
    some { c with read_position := c.read_position + len }
  else
    none

/-- The match in Cigar::next mapping a feature to its implied operation;
the catch-all arm of the source is a todo macro, modelled as none. -/
def featureOp : Feature → Option (Kind × Nat)
  | Feature.Substitution _ _ => some (Kind.Match, 1)
  | Feature.Insertion _ bases => some (Kind.Insertion, bases.length)
  | Feature.Deletion _ len => some (Kind.Deletion, len)
  | Feature.InsertBase _ _ => some (Kind.Insertion, 1)
  | Feature.ReferenceSkip _ len => some (Kind.Skip, len)
  | Feature.SoftClip _ bases => some (Kind.SoftClip, bases.length)
  | Feature.Padding _ len => some (Kind.Pad, len)
  | Feature.HardClip _ len => some (Kind.HardClip, len)
  | _ => none

/-- One step of the Iterator implementation for Cigar (Cigar::next).
Returns ok none at end of iteration, ok (some (op, c)) when an operation
is produced with successor state c, and error on a panic path. -/
def Cigar.next (c : Cigar) : Except Err (Option (Op × Cigar)) :=
  match c.next_op with
  | some (kind, len) => Except.ok (some (Op.new kind len, { c with next_op := none }))
  | none =>
    match c.features with
    | [] =>
      if c.read_position ≤ c.read_length then
        let len := c.read_length - c.read_position + 1
        match c.consume_read len with
        | some c1 => Except.ok (some (Op.new Kind.Match len, c1))
        | none => Except.error Err.addOverflow
      else
        Except.ok none
    | feature :: rest =>
      let c1 : Cigar := { c with features := rest }
      let c2 : Cigar :=
        if feature.position > c1.read_position then
          { c1 with
              read_position := feature.position,
              next_op := some (Kind.Match, feature.position - c1.read_position) }
        else c1
      match featureOp feature with
      | none => Except.error Err.todo
      | some (kind, len) =>
        match (if kind.consumes_read then c2.consume_read len else some c2) with
        | none => Except.error Err.addOverflow
        | some c3 =>
          match c3.next_op with
          | some (k0, l0) => Except.ok (some (Op.new k0 l0, { c3 with next_op := some (kind, len) }))
          | none => Except.ok (some (Op.new kind len, { c3 with next_op := none }))

/-- Termination measure for driving the Cigar iterator to completion: every
feature yields at most two iterator steps (a gap Match and its own
operation), and at most one trailing Match step remains. -/
def Cigar.measure (c : Cigar) : Nat :=
  3 * c.features.length + (if c.next_op.isSome then 1 else 0) +
    (if c.read_position ≤ c.read_length then 1 else 0)

/-- Fueled driver collecting every operation the iterator yields. -/
def Cigar.collectGo : Nat → Cigar → Except Err (List Op)
  | 0, _ => Except.error Err.fuel
  | fuel + 1, c =>
    match c.next with
    | Except.error e => Except.error e
    | Except.ok none => Except.ok []
    | Except.ok (some (op, c1)) =>
      match Cigar.collectGo fuel c1 with
      | Except.error e => Except.error e
      | Except.ok ops => Except.ok (op :: ops)

/-- Collect the full CIGAR operation sequence of a record (the fuel bounds
the iterator step count, which is below the measure). -/
def Cigar.collect (c : Cigar) : Except Err (List Op) :=
  Cigar.collectGo (c.measure + 1) c

/-- Total length of the read-consuming operations in an operation list. -/
def readConsumedLen (ops : List Op) : Nat :=
  ((ops.filter (fun op => op.kind.consumes_read)).map Op.len).sum

/-- Mirror of the cursor walk over unbounded naturals: the final value of
the read cursor after the derivation, used to phrase the amended overflow
claims (the cursor only ever increases, so this is also its maximum). -/
def cursorFinal : List Feature → Nat → Nat → Nat
  | [], read_length, pos => if pos ≤ read_length then read_length + 1 else pos
  | f :: rest, read_length, pos =>
    let pos1 := if f.position > pos then f.position else pos
    let pos2 :=
      match featureOp f with
      | some (kind, len) => if kind.consumes_read then pos1 + len else pos1
      | none => pos1
    cursorFinal rest read_length pos2

/-- A feature list is implemented when no feature falls into the todo arm
of Cigar::next. -/
def allImplemented (features : List Feature) : Prop :=
  ∀ f ∈ features, (featureOp f).isSome

instance (features : List Feature) : Decidable (allImplemented features) := by
  unfold allImplemented
  infer_instance

/-- The lazy quality-score view of record/quality_scores.rs: it stores the
feature list and the declared read length. -/
structure QualityScores where
  features : List Feature
  read_length : Nat
deriving DecidableEq, Repr

/-- QualityScores::new. -/
def QualityScores.new (features : List Feature) (read_length : Nat) : QualityScores :=
  { features := features, read_length := read_length }

/-- The len method of the sam QualityScores trait implementation: the
declared read length, independent of the features. -/
def QualityScores.len (q : QualityScores) : Nat := q.read_length

/-- The is_empty method: self.len() == 0. -/
def QualityScores.is_empty (q : QualityScores) : Bool := q.len == 0

/-! rANS 4x8 constants; the module root defining them is not in the source
snapshot, the values are per the spec (lower bound 2 to the 23) and pinned
by the fixed test vectors in encode.rs. -/

def LOWER_BOUND : Nat := 0x800000

def STATE_COUNT : Nat := 4

/-- The fixed normalization scale of the frequency model. The spec text
says 4096; the serialized tables of the fixed test vectors sum to 4095,
which pins the actual scale used by the encoder. -/
def SCALE : Nat := 4095

/-- Pointwise update of a table modelled as a function. -/
def setf {β : Type} (T : Nat → β) (i : Nat) (v : β) : Nat → β :=
  fun j => if j = i then v else T j

/-- Order tag of the rans_4x8 codec. -/
inductive Order
  | Zero
  | One
deriving DecidableEq, Repr

/-- Concatenation of the lists produced per element. -/
def flatMapL {α β : Type} (f : α → List β) : List α → List β
  | [] => []
  | a :: l => f a ++ flatMapL f l

/-! encode.rs primitives (present in the source snapshot). -/

/-- Fueled body of encode.rs normalize: while the state is at least
(LOWER_BOUND >> 4) * freq, write its low byte and shift right by eight.
The source loop would not terminate for freq = 0 (encode only reaches it
with nonzero frequencies), hence the positivity guard; the fuel is always
sufficient because the state strictly decreases. Returns the bytes in
write order together with the final state. -/
def normalizeGo : Nat → Nat → Nat → List Nat × Nat
  | 0, x, _ => ([], x)
  | fuel + 1, x, freq =>
    if 0 < freq ∧ (LOWER_BOUND >>> 4) * freq ≤ x then
      let p := normalizeGo fuel (x >>> 8) freq
      (x % 256 :: p.1, p.2)
    else ([], x)

/-- encode.rs normalize. -/
def normalize (x freq : Nat) : List Nat × Nat := normalizeGo (x + 1) x freq

/-- encode.rs update: (x / freq << 12) + x % freq + cfreq on u32, modelled
with an explicit wrap at 2 to the 32. A zero freq panics in the source on
division; Nat division returns 0 there, a case encode never reaches. -/
def update (x freq cfreq_i : Nat) : Nat :=
  ((x / freq) <<< 12 + x % freq + cfreq_i) % 2 ^ 32

/-- Little-endian u32 bytes (byteorder WriteBytesExt). -/
def le32 (n : Nat) : List Nat :=
  [n % 256, n / 2 ^ 8 % 256, n / 2 ^ 16 % 256, n / 2 ^ 24 % 256]

/-- encode.rs write_states: the four lane states, little-endian u32 each. -/
def write_states (states : Nat → Nat) : List Nat :=
  le32 (states 0) ++ le32 (states 1) ++ le32 (states 2) ++ le32 (states 3)

/-- Modelled from the spec: reading one little-endian u32 from the byte
stream (byteorder ReadBytesExt, used by the missing reader helpers). -/
def readLe32 : List Nat → Except Err (Nat × List Nat)
  | b0 :: b1 :: b2 :: b3 :: rest =>
    Except.ok (b0 + b1 * 2 ^ 8 + b2 * 2 ^ 16 + b3 * 2 ^ 24, rest)
  | _ => Except.error Err.eof

/-- Modelled from the spec: read_states of the missing decode module root,
four little-endian u32 lane states. -/
def read_states (input : List Nat) : Except Err ((Nat → Nat) × List Nat) :=
  match readLe32 input with
  | Except.error e => Except.error e
  | Except.ok (s0, r0) =>
    match readLe32 r0 with
    | Except.error e => Except.error e
    | Except.ok (s1, r1) =>
      match readLe32 r1 with
      | Except.error e => Except.error e
      | Except.ok (s2, r2) =>
        match readLe32 r2 with
        | Except.error e => Except.error e
        | Except.ok (s3, r3) =>
          Except.ok (fun j => if j = 0 then s0 else if j = 1 then s1
            else if j = 2 then s2 else s3, r3)

/-! Frequency model. -/

/-- Modelled from the spec: build_frequencies of the missing order-0
encoder counts the occurrences of each byte. -/
def build_frequencies (src : List Nat) : Nat → Nat := fun s => src.count s

/-- Total of the 256 entries of a frequency table. -/
def freqTotal (f : Nat → Nat) : Nat := ((List.range 256).map f).sum

/-- Index of the greatest entry, ties resolved to the last index (the
source scans with a greater-or-equal comparison). -/
def maxIndex (f : Nat → Nat) : Nat :=
  ((List.range 256).foldl (fun acc i => if acc.1 ≤ f i then (f i, i) else acc) (0, 0)).2

/-- Proportional scaling by floor division, bumping scaled-to-zero present
symbols to one. -/
def floorScaled (counts : Nat → Nat) (total : Nat) : Nat → Nat :=
  fun s =>
    if s < 256 then
      if counts s * SCALE / total = 0 ∧ 0 < counts s then 1
      else counts s * SCALE / total
    else 0

/-- Modelled from the spec: overshoot repair of the sum invariant (the
encoder module is missing and the spec fixes the scaled sum exactly);
repeatedly lowers the greatest entry, never below one. The fuel is the
current total, which strictly decreases. -/
def fixOvershootGo : Nat → (Nat → Nat) → Nat → Nat
  | 0, f => f
  | fuel + 1, f =>
    if SCALE < freqTotal f then
      fixOvershootGo fuel
        (setf f (maxIndex f)
          (f (maxIndex f) - min (freqTotal f - SCALE) (f (maxIndex f) - 1)))
    else f

/-- Modelled from the spec: normalize_frequencies of the missing encoder.
Scale the counts so the 256 entries sum to the fixed scale with every
present symbol keeping frequency at least one; an integer-division
deficit goes to the symbol with the greatest count (ties to the last,
pinned by the fixed test vectors). -/
def normalize_frequencies (counts : Nat → Nat) : Nat → Nat :=
  if freqTotal counts = 0 then fun _ => 0
  else
    let f := floorScaled counts (freqTotal counts)
    if freqTotal f < SCALE then
      setf f (maxIndex counts) (f (maxIndex counts) + (SCALE - freqTotal f))
    else fixOvershootGo (freqTotal f) f

/-- build_cumulative_frequencies: exclusive prefix sums of a table. -/
def cfreq (f : Nat → Nat) (s : Nat) : Nat := ((List.range s).map f).sum

/-- Linear search for the symbol owning a cumulative value. -/
def lookupGo (f : Nat → Nat) (v : Nat) : Nat → Nat → Nat
  | 0, _ => 0
  | fuel + 1, s =>
    if cfreq f s ≤ v ∧ v < cfreq f s + f s then s else lookupGo f v fuel (s + 1)

/-- Modelled from the spec: the 4096-entry cumulative-value-to-symbol
lookup table of the missing order-0 module
(build_cumulative_freqs_symbols_table_0), modelled as the function from a
12-bit cumulative value to its owning symbol. -/
def lookupSymbol (f : Nat → Nat) (v : Nat) : Nat := lookupGo f v 256 0

/-! Decode-side state primitives; the helper module is missing from the
snapshot, the formulas are the spec step 6 formulas. -/

/-- Modelled from the spec: rans_get_cumulative_freq, the low 12 bits. -/
def rans_get_cumulative_freq (r : Nat) : Nat := r % 4096

/-- Modelled from the spec: rans_advance_step,
freq * (state >> 12) + (state & 0xFFF) - cumfreq, with wrapping u32
subtraction. -/
def rans_advance_step (r freq cf : Nat) : Nat :=
  (freq * (r >>> 12) + r % 4096 + (2 ^ 32 - cf % 2 ^ 32)) % 2 ^ 32

/-- Modelled from the spec: rans_renorm, reading one byte at a time into
the low 8 bits while the state is below LOWER_BOUND; a truncated stream is
an end-of-data error. -/
def rans_renorm : List Nat → Nat → Except Err (Nat × List Nat)
  | [], r => if LOWER_BOUND ≤ r then Except.ok (r, []) else Except.error Err.eof
  | b :: rest, r =>
    if LOWER_BOUND ≤ r then Except.ok (r, b :: rest)
    else rans_renorm rest ((r <<< 8 + b) % 2 ^ 32)

/-! Run-length compacted frequency-table serialization. The parser loop
shape is that of read_frequencies_1 in src order_1.rs; the writer is the
missing encoder side, forced byte-for-byte by that parser and pinned by
the fixed test vectors. Both are generic in the per-symbol payload. -/

/-- Variable-length frequency value: below 0x80 one byte, otherwise two
bytes with the high bit set (pinned by the fixed test vectors). -/
def write_frequency (f : Nat) : List Nat :=
  if f < 0x80 then [f] else [0x80 + f / 256, f % 256]

/-- Modelled from the spec: read_frequency of the missing reader. -/
def read_frequency : List Nat → Except Err (Nat × List Nat)
  | [] => Except.error Err.eof
  | b :: rest =>
    if b < 0x80 then Except.ok (b, rest)
    else
      match rest with
      | [] => Except.error Err.eof
      | b2 :: rest2 => Except.ok (b % 128 * 256 + b2, rest2)

/-- Count of consecutively present symbols directly after s, looking at
most n further. -/
def runLengthP (pres : Nat → Bool) : Nat → Nat → Nat
  | 0, _ => 0
  | n + 1, s => if pres (s + 1) then runLengthP pres n (s + 1) + 1 else 0

/-- Generic writer loop over all 256 symbols with a run counter: absent
symbols are skipped; a run member writes only its payload; a fresh symbol
writes its byte, then a run count when its predecessor is present, then
its payload. -/
def rleWriteLoop (pres : Nat → Bool) (wr : Nat → List Nat) : Nat → Nat → Nat → List Nat
  | 0, _, _ => []
  | n + 1, s, rle =>
    if pres s then
      if 0 < rle then wr s ++ rleWriteLoop pres wr n (s + 1) (rle - 1)
      else if 0 < s ∧ pres (s - 1) then
        [s, runLengthP pres (255 - s) s] ++ wr s ++
          rleWriteLoop pres wr n (s + 1) (runLengthP pres (255 - s) s)
      else
        [s] ++ wr s ++ rleWriteLoop pres wr n (s + 1) 0
    else rleWriteLoop pres wr n (s + 1) rle

/-- Generic run-length table writer with the 0 terminator; an all-absent
table is written as symbol 0, its payload, and the terminator, which the
parser loop reads back into an unchanged table. -/
def rleWrite (pres : Nat → Bool) (wr : Nat → List Nat) : List Nat :=
  if (List.range 256).all (fun s => !pres s) then [0] ++ wr 0 ++ [0]
  else rleWriteLoop pres wr 256 0 0 ++ [0]

/-- Generic parser loop, the shape of read_frequencies_1 in src
order_1.rs: read the payload for the current symbol; while the run
counter is positive step to the next symbol (u8 wrap); otherwise read the
next symbol byte, read a run count when it directly follows the previous
symbol, and stop at symbol 0. The source overlays a nested payload onto
the existing zeroed row; the model replaces the row, identical on every
stream the writer produces (each symbol read once). -/
def rleReadNext {β : Type}
    (go : (Nat → β) → Nat → Nat → Nat → List Nat → Except Err ((Nat → β) × List Nat))
    (tbl : Nat → β) (last_sym : Nat) (input : List Nat) :
    Except Err ((Nat → β) × List Nat) :=
  match input with
  | [] => Except.error Err.eof
  | s2 :: rest2 =>
    if last_sym < 255 ∧ s2 = last_sym + 1 then
      match rest2 with
      | [] => Except.error Err.eof
      | rb :: rest3 => go tbl s2 s2 rb rest3
    else if s2 = 0 then Except.ok (tbl, rest2)
    else go tbl s2 s2 0 rest2

def rleReadGo {β : Type} (rd : List Nat → Except Err (β × List Nat)) :
    Nat → (Nat → β) → Nat → Nat → Nat → List Nat → Except Err ((Nat → β) × List Nat)
  | 0, _, _, _, _, _ => Except.error Err.fuel
  | fuel + 1, tbl, sym, last_sym, rle, input =>
    match rd input with
    | Except.error e => Except.error e
    | Except.ok (v, rest) =>
      let tbl2 := setf tbl sym v
      if 0 < rle then
        if (sym + 1) % 256 = 0 then Except.ok (tbl2, rest)
        else rleReadGo rd fuel tbl2 ((sym + 1) % 256) ((sym + 1) % 256) (rle - 1) rest
      else rleReadNext (rleReadGo rd fuel) tbl2 last_sym rest

/-- Generic run-length table reader: first symbol byte, then the loop. -/
def rleRead {β : Type} (rd : List Nat → Except Err (β × List Nat)) (d0 : Nat → β)
    (input : List Nat) : Except Err ((Nat → β) × List Nat) :=
  match input with
  | [] => Except.error Err.eof
  | sym :: rest => rleReadGo rd (input.length + 258) d0 sym sym 0 rest

/-- Modelled from the spec: the missing order-0 table writer. -/
def write_frequencies (f : Nat → Nat) : List Nat :=
  rleWrite (fun s => decide (0 < f s)) (fun s => write_frequency (f s))

/-- Modelled from the spec: read_frequencies_0 of the missing order-0
decoder; the loop shape is the one of read_frequencies_1 in src. -/
def read_frequencies_0 (input : List Nat) : Except Err ((Nat → Nat) × List Nat) :=
  rleRead read_frequency (fun _ => 0) input

/-- Modelled from the spec: the missing order-1 table writer, contexts as
symbols and the context table as payload. -/
def write_frequencies_1 (F : Nat → Nat → Nat) : List Nat :=
  rleWrite (fun c => decide (0 < freqTotal (F c))) (fun c => write_frequencies (F c))

/-- read_frequencies_1 of src order_1.rs: the run-length loop over
contexts with an order-0 table as payload. -/
def read_frequencies_1 (input : List Nat) : Except Err ((Nat → Nat → Nat) × List Nat) :=
  rleRead read_frequencies_0 (fun _ _ => 0) input

/-! Order-0 encode and decode. -/

/-- Modelled from the spec: initial lane states of the missing encoder. -/
def initStates : Nat → Nat := fun _ => LOWER_BOUND

/-- Modelled from the spec: the per-symbol loop of the missing order-0
encoder, processing (index, byte) pairs in reverse source order on lane
index mod 4 (lane striping pinned by the order-0 test vector): flush with
normalize, then advance with update. Returns the final states and the
flushed bytes in emission order. -/
def encode0Steps (freqs cf : Nat → Nat) :
    List (Nat × Nat) → (Nat → Nat) → ((Nat → Nat) × List Nat)
  | [], states => (states, [])
  | (i, s) :: rest, states =>
    let p := normalize (states (i % 4)) (freqs s)
    let q := encode0Steps freqs cf rest
      (setf states (i % 4) (update p.2 (freqs s) (cf s)))
    (q.1, p.1 ++ q.2)

/-- Modelled from the spec: order_0::encode of the missing encoder:
normalized table, reversed per-symbol loop, then the header, the table,
the states, and the flushed bytes reversed. -/
def rans_encode_0 (src : List Nat) : List Nat :=
  let freqs := normalize_frequencies (build_frequencies src)
  let p := encode0Steps freqs (cfreq freqs) src.enum.reverse initStates
  let body := write_frequencies freqs ++ write_states p.1 ++ p.2.reverse
  [0] ++ le32 body.length ++ le32 src.length ++ body

/-- Modelled from the spec: the output loop of the missing order-0
decoder; output position i is produced by lane i mod 4 (striping pinned
by the test vector): symbol lookup on the low 12 bits, advance, renorm. -/
def decode0Steps (freqs : Nat → Nat) :
    Nat → Nat → (Nat → Nat) → List Nat → Except Err (List Nat × (Nat → Nat) × List Nat)
  | 0, _, states, input => Except.ok ([], states, input)
  | k + 1, i, states, input =>
    let r := states (i % 4)
    let s := lookupSymbol freqs (rans_get_cumulative_freq r)
    match rans_renorm input (rans_advance_step r (freqs s) (cfreq freqs s)) with
    | Except.error e => Except.error e
    | Except.ok (r2, input2) =>
      match decode0Steps freqs k (i + 1) (setf states (i % 4) r2) input2 with
      | Except.error e => Except.error e
      | Except.ok (out, stf, rest) => Except.ok (s :: out, stf, rest)

/-- Modelled from the spec: order-0 decode of a body (after the 9-byte
header): frequency table, states, then n output bytes. -/
def rans_decode_0 (input : List Nat) (n : Nat) : Except Err (List Nat × List Nat) :=
  match read_frequencies_0 input with
  | Except.error e => Except.error e
  | Except.ok (freqs, r1) =>
    match read_states r1 with
    | Except.error e => Except.error e
    | Except.ok (states, r2) =>
      match decode0Steps freqs n 0 states r2 with
      | Except.error e => Except.error e
      | Except.ok (out, _, rest) => Except.ok (out, rest)

/-! Order-1 encode and decode. The decoder embeds src
decode/order_1.rs; its per-lane chunks are built as lists, one append per
write of the source loops. -/

/-- One lane step of the order-1 decode loop: symbol lookup in the table
of the last symbol of this lane, advance, renorm, update last symbol. -/
def rans_decode_1_step (F : Nat → Nat → Nat) (rl : Nat × Nat) (input : List Nat) :
    Except Err (Nat × (Nat × Nat) × List Nat) :=
  let s := lookupSymbol (F rl.2) (rans_get_cumulative_freq rl.1)
  match rans_renorm input (rans_advance_step rl.1 (F rl.2 s) (cfreq (F rl.2) s)) with
  | Except.error e => Except.error e
  | Except.ok (r2, input2) => Except.ok (s, (r2, s), input2)

/-- The main interleaved loop of src order_1.rs decode: chunk_size
iterations, each writing one byte per lane in lane order, every lane
owning its own (state, last symbol) pair and its own chunk. -/
def decode1Main (F : Nat → Nat → Nat) :
    Nat → (Nat → Nat × Nat) → List Nat →
    Except Err ((List Nat × List Nat × List Nat × List Nat) × (Nat → Nat × Nat) × List Nat)
  | 0, lanes, input => Except.ok (([], [], [], []), lanes, input)
  | k + 1, lanes, input =>
    match rans_decode_1_step F (lanes 0) input with
    | Except.error e => Except.error e
    | Except.ok (s0, l0, in0) =>
      match rans_decode_1_step F (lanes 1) in0 with
      | Except.error e => Except.error e
      | Except.ok (s1, l1, in1) =>
        match rans_decode_1_step F (lanes 2) in1 with
        | Except.error e => Except.error e
        | Except.ok (s2, l2, in2) =>
          match rans_decode_1_step F (lanes 3) in2 with
          | Except.error e => Except.error e
          | Except.ok (s3, l3, in3) =>
            match decode1Main F k
              (setf (setf (setf (setf lanes 0 l0) 1 l1) 2 l2) 3 l3) in3 with
            | Except.error e => Except.error e
            | Except.ok ((c0, c1, c2, c3), lf, rest) =>
              Except.ok ((s0 :: c0, s1 :: c1, s2 :: c2, s3 :: c3), lf, rest)

/-- The remainder loop of src order_1.rs decode: lane 3 continues with its
state and last symbol over the tail of its chunk. -/
def decode1Rem (F : Nat → Nat → Nat) :
    Nat → Nat × Nat → List Nat → Except Err (List Nat × (Nat × Nat) × List Nat)
  | 0, rl, input => Except.ok ([], rl, input)
  | k + 1, rl, input =>
    match rans_decode_1_step F rl input with
    | Except.error e => Except.error e
    | Except.ok (s, rl2, input2) =>
      match decode1Rem F k rl2 input2 with
      | Except.error e => Except.error e
      | Except.ok (out, rlf, rest) => Except.ok (s :: out, rlf, rest)

/-- src decode/order_1.rs decode over a body: frequency tables, states,
the output split into four chunks (the first three of length n / 4, the
fourth absorbing the remainder), the main loop, then the lane-3 remainder
loop. Returns the four chunks. -/
def rans_decode_1 (input : List Nat) (n : Nat) :
    Except Err ((List Nat × List Nat × List Nat × List Nat) × List Nat) :=
  match read_frequencies_1 input with
  | Except.error e => Except.error e
  | Except.ok (F, r1) =>
    match read_states r1 with
    | Except.error e => Except.error e
    | Except.ok (states, r2) =>
      match decode1Main F (n / 4) (fun j => (states j, 0)) r2 with
      | Except.error e => Except.error e
      | Except.ok ((c0, c1, c2, c3), lanesf, r3) =>
        match decode1Rem F (n - 3 * (n / 4) - n / 4) (lanesf 3) r3 with
        | Except.error e => Except.error e
        | Except.ok (c3b, _, rest) => Except.ok ((c0, c1, c2, c3 ++ c3b), rest)

/-- The write schedule of the order-1 decoder: (lane, output position)
pairs in write order; the main loop writes position lane * (n / 4) + i at
step i, the remainder loop continues lane 3. -/
def decode1Schedule (n : Nat) : List (Nat × Nat) :=
  flatMapL (fun i => [(0, i), (1, n / 4 + i), (2, 2 * (n / 4) + i), (3, 3 * (n / 4) + i)])
      (List.range (n / 4)) ++
    (List.range (n - 4 * (n / 4))).map (fun m => (3, 4 * (n / 4) + m))

/-- Modelled from the spec: pair statistics of the missing order-1
encoder, pinned by the order-1 test vector: counts of each adjacent byte
pair, plus context-0 counts of the four chunk-start bytes. -/
def build_contexts (src : List Nat) : Nat → Nat → Nat :=
  fun c s =>
    (src.zip src.tail).count (c, s) +
      if c = 0 ∧ src ≠ [] then
        ((List.range 4).filter
          (fun j => decide (src.getD (j * (src.length / 4)) 0 = s))).length
      else 0

/-- Modelled from the spec: per-context normalization of the missing
order-1 encoder. -/
def normalize_contexts (counts : Nat → Nat → Nat) : Nat → Nat → Nat :=
  fun c => normalize_frequencies (counts c)

/-- The context of an output position: 0 at each chunk start, otherwise
the previous byte, matching the last-symbol tracking of the decoder. -/
def ctxOf (src : List Nat) (p : Nat) : Nat :=
  if p = 0 ∨ p = src.length / 4 ∨ p = 2 * (src.length / 4) ∨ p = 3 * (src.length / 4) then 0
  else src.getD (p - 1) 0

/-- Modelled from the spec: the order-1 encoder processes (lane, context,
byte) triples in the exact reverse of the decode write schedule (encode is
the precise algorithmic inverse). -/
def encode1Schedule (src : List Nat) : List (Nat × Nat × Nat) :=
  ((decode1Schedule src.length).reverse).map
    (fun jp => (jp.1, ctxOf src jp.2, src.getD jp.2 0))

/-- Modelled from the spec: the per-symbol loop of the missing order-1
encoder: flush then update on the scheduled lane with the scheduled
context table. -/
def encode1Steps (F cF : Nat → Nat → Nat) :
    List (Nat × Nat × Nat) → (Nat → Nat) → ((Nat → Nat) × List Nat)
  | [], states => (states, [])
  | (j, c, s) :: rest, states =>
    let p := normalize (states j) (F c s)
    let q := encode1Steps F cF rest (setf states j (update p.2 (F c s) (cF c s)))
    (q.1, p.1 ++ q.2)

/-- Modelled from the spec: order_1::encode of the missing encoder. -/
def rans_encode_1 (src : List Nat) : List Nat :=
  let F := normalize_contexts (build_contexts src)
  let p := encode1Steps F (fun c => cfreq (F c)) (encode1Schedule src) initStates
  let body := write_frequencies_1 F ++ write_states p.1 ++ p.2.reverse
  [1] ++ le32 body.length ++ le32 src.length ++ body

/-- encode of src encode.rs: dispatch on the order. -/
def rans_encode (order : Order) (src : List Nat) : List Nat :=
  match order with
  | Order.Zero => rans_encode_0 src
  | Order.One => rans_encode_1 src

/-- Modelled from the spec: the top-level decoder: read the order byte and
the two little-endian sizes, then decode a body of the declared output
length with the selected order. -/
def rans_decode (input : List Nat) (n : Nat) : Except Err (List Nat) :=
  match input with
  | [] => Except.error Err.eof
  | order :: rest =>
    match readLe32 rest with
    | Except.error e => Except.error e
    | Except.ok (_, r1) =>
      match readLe32 r1 with
      | Except.error e => Except.error e
      | Except.ok (_, r2) =>
        if order = 0 then
          match rans_decode_0 r2 n with
          | Except.error e => Except.error e
          | Except.ok (out, _) => Except.ok out
        else if order = 1 then
          match rans_decode_1 r2 n with
          | Except.error e => Except.error e
          | Except.ok ((c0, c1, c2, c3), _) => Except.ok (c0 ++ c1 ++ c2 ++ c3)
        else Except.error Err.invalidData

/-! Container reader (async/io/reader/container.rs). -/

/-- Modelled from the spec: the container header fields: length of the
rest of the container, reference id, alignment start, alignment span,
record count, and the landmark offsets of the contained slices. The
header submodule is not in the source snapshot. -/
structure ContainerHeader where
  length : Nat
  reference_sequence_id : Nat
  alignment_start : Nat
  alignment_span : Nat
  record_count : Nat
  landmarks : List Nat
deriving DecidableEq, Repr

instance : Inhabited ContainerHeader := ⟨⟨0, 0, 0, 0, 0, []⟩⟩

/-- Modelled from the spec: a Block: codec id, compressed size,
uncompressed size, payload bytes. -/
structure Block where
  codec : Nat
  uncompressed_len : Nat
  payload : List Nat
deriving DecidableEq, Repr

/-- Modelled from the spec: a Slice: positional header fields, external
block sizes, the core block, and the external blocks. -/
structure Slice where
  reference_sequence_id : Nat
  alignment_start : Nat
  alignment_span : Nat
  record_count : Nat
  core : Block
  external_blocks : List Block
deriving DecidableEq, Repr

/-- A Container: one compression header block and its slices. -/
structure Container where
  compression_header : Block
  slices : List Slice
deriving DecidableEq, Repr

/-- Modelled from the spec: reading a Block from the working buffer:
codec id byte, compressed and uncompressed sizes, then exactly
compressed-size payload bytes; truncation is an end-of-data error. -/
def read_block (input : List Nat) : Except Err (Block × List Nat) :=
  match input with
  | [] => Except.error Err.eof
  | codec :: rest =>
    match readLe32 rest with
    | Except.error e => Except.error e
    | Except.ok (csize, r1) =>
      match readLe32 r1 with
      | Except.error e => Except.error e
      | Except.ok (ulen, r2) =>
        if r2.length < csize then Except.error Err.eof
        else
          Except.ok (Block.mk codec ulen (r2.take csize), r2.drop csize)

/-- get_compression_header: the compression header is itself a Block at
the front of the container buffer (payload opaque at this layer). -/
def get_compression_header (input : List Nat) : Except Err (Block × List Nat) :=
  read_block input

/-- Modelled from the spec: a fixed number of little-endian u32 values. -/
def readLe32List : Nat → List Nat → Except Err (List Nat × List Nat)
  | 0, input => Except.ok ([], input)
  | k + 1, input =>
    match readLe32 input with
    | Except.error e => Except.error e
    | Except.ok (v, r1) =>
      match readLe32List k r1 with
      | Except.error e => Except.error e
      | Except.ok (vs, rest) => Except.ok (v :: vs, rest)

/-- Modelled from the spec: a fixed number of Blocks. -/
def readBlockList : Nat → List Nat → Except Err (List Block × List Nat)
  | 0, input => Except.ok ([], input)
  | k + 1, input =>
    match read_block input with
    | Except.error e => Except.error e
    | Except.ok (b, r1) =>
      match readBlockList k r1 with
      | Except.error e => Except.error e
      | Except.ok (bs, rest) => Except.ok (b :: bs, rest)

/-- Modelled from the spec: read_slice parses the slice header (reference
id, alignment start, span, record count, external block count and sizes),
then the core block and the external blocks. -/
def read_slice (input : List Nat) : Except Err (Slice × List Nat) :=
  match readLe32List 5 input with
  | Except.error e => Except.error e
  | Except.ok (hdr, r1) =>
    match readLe32List (hdr.getD 4 0) r1 with
    | Except.error e => Except.error e
    | Except.ok (_, r2) =>
      match read_block r2 with
      | Except.error e => Except.error e
      | Except.ok (core, r3) =>
        match readBlockList (hdr.getD 4 0) r3 with
        | Except.error e => Except.error e
        | Except.ok (ext, rest) =>
          Except.ok (Slice.mk (hdr.getD 0 0) (hdr.getD 1 0) (hdr.getD 2 0)
            (hdr.getD 3 0) core ext, rest)

/-- Modelled from the spec: the async container header reader. At an
exhausted stream it reports length 0, the clean end-of-stream signal,
rather than an error; within a nonempty stream it reads the header
fields little-endian (truncation is an end-of-data error) and returns
the declared length of the rest of the container. -/
def read_header (input : List Nat) : Except Err (Nat × ContainerHeader × List Nat) :=
  match input with
  | [] => Except.ok (0, default, [])
  | _ :: _ =>
    match readLe32List 6 input with
    | Except.error e => Except.error e
    | Except.ok (hdr, r1) =>
      match readLe32List (hdr.getD 5 0) r1 with
      | Except.error e => Except.error e
      | Except.ok (lms, rest) =>
        Except.ok (hdr.getD 0 0,
          { length := hdr.getD 0 0, reference_sequence_id := hdr.getD 1 0,
            alignment_start := hdr.getD 2 0, alignment_span := hdr.getD 3 0,
            record_count := hdr.getD 4 0, landmarks := lms }, rest)

/-- The slice loop of read_container: one slice per landmark. -/
def readSliceList : Nat → List Nat → Except Err (List Slice × List Nat)
  | 0, input => Except.ok ([], input)
  | k + 1, input =>
    match read_slice input with
    | Except.error e => Except.error e
    | Except.ok (s, r1) =>
      match readSliceList k r1 with
      | Except.error e => Except.error e
      | Except.ok (ss, rest) => Except.ok (s :: ss, rest)

/-- read_container of src async/io/reader/container.rs: read the header;
a reported length of 0 yields the clean end-of-stream signal none;
otherwise read exactly length bytes into a working buffer, parse the
compression header from its front and one slice per landmark, and return
the container. -/
def read_container (input : List Nat) : Except Err (Option Container × List Nat) :=
  match read_header input with
  | Except.error e => Except.error e
  | Except.ok (len, header, rest) =>
    if len = 0 then Except.ok (none, rest)
    else if rest.length < len then Except.error Err.eof
    else
      match get_compression_header (rest.take len) with
      | Except.error e => Except.error e
      | Except.ok (ch, buf1) =>
        match readSliceList header.landmarks.length buf1 with
        | Except.error e => Except.error e
        | Except.ok (slices, _) =>
          Except.ok (some { compression_header := ch, slices := slices }, rest.drop len)


/-! Decompositions of the order-1 write schedule, used by the round-trip
development: the tail of the main interleaved phase from iteration i, the
tail of the lane-3 remainder phase from output position p, and the encoder
view of a decode-schedule fragment (reversed, with contexts and symbols
attached), matching encode1Schedule on the whole schedule. -/

def decode1ScheduleFrom (n i : Nat) : List (Nat × Nat) :=
  flatMapL (fun i2 => [(0, i2), (1, n / 4 + i2), (2, 2 * (n / 4) + i2), (3, 3 * (n / 4) + i2)])
      (List.range' i (n / 4 - i)) ++
    (List.range (n - 4 * (n / 4))).map (fun m => (3, 4 * (n / 4) + m))

def decode1RemFrom (n p : Nat) : List (Nat × Nat) :=
  (List.range (n - p)).map (fun m => (3, p + m))

def encSched (src : List Nat) (sch : List (Nat × Nat)) : List (Nat × Nat × Nat) :=
  sch.reverse.map (fun jp => (jp.1, ctxOf src jp.2, src.getD jp.2 0))

/-! THEOREMS -/

instance {ε α : Type} [DecidableEq ε] [DecidableEq α] : DecidableEq (Except ε α) := fun a b =>
  match a, b with
  | Except.error x, Except.error y =>
    if h : x = y then isTrue (by rw [h]) else isFalse (by intro hc; injection hc; contradiction)
  | Except.error _, Except.ok _ => isFalse (by intro hc; exact Except.noConfusion hc)
  | Except.ok _, Except.error _ => isFalse (by intro hc; exact Except.noConfusion hc)
  | Except.ok x, Except.ok y =>
    if h : x = y then isTrue (by rw [h]) else isFalse (by intro hc; injection hc; contradiction)

theorem shiftRight8_lt (x : Nat) (hx : 0 < x) : x >>> 8 < x := by
  rw [Nat.shiftRight_eq_div_pow]
  exact Nat.div_lt_self hx (by norm_num)

theorem th_pos (f : Nat) (hf : 0 < f) : 0 < (LOWER_BOUND >>> 4) * f := by
  have h19 : LOWER_BOUND >>> 4 = 2 ^ 19 := rfl
  rw [h19]
  exact Nat.mul_pos (by norm_num) hf

theorem normalizeGo_succ (fuel x f : Nat) :
    normalizeGo (fuel + 1) x f =
      if 0 < f ∧ (LOWER_BOUND >>> 4) * f ≤ x then
        (x % 256 :: (normalizeGo fuel (x >>> 8) f).1, (normalizeGo fuel (x >>> 8) f).2)
      else ([], x) := rfl

theorem normalizeGo_mono (fuel1 : Nat) : ∀ fuel2 x f, x < fuel1 → x < fuel2 →
    normalizeGo fuel1 x f = normalizeGo fuel2 x f := by
  induction fuel1 with
  | zero => intro fuel2 x f h1; omega
  | succ g1 ih =>
    intro fuel2 x f h1 h2
    obtain ⟨g2, rfl⟩ : ∃ g2, fuel2 = g2 + 1 := ⟨fuel2 - 1, by omega⟩
    rw [normalizeGo_succ, normalizeGo_succ]
    by_cases hg : 0 < f ∧ (LOWER_BOUND >>> 4) * f ≤ x
    · rw [if_pos hg, if_pos hg]
      have hx : 0 < x := by have := th_pos f hg.1; omega
      have hlt : x >>> 8 < x := shiftRight8_lt x hx
      rw [ih g2 (x >>> 8) f (by omega) (by omega)]
    · rw [if_neg hg, if_neg hg]

theorem normalize_unfold (x f : Nat) (hf : 0 < f) :
    normalize x f = if (LOWER_BOUND >>> 4) * f ≤ x then
      ((x % 256) :: (normalize (x >>> 8) f).1, (normalize (x >>> 8) f).2)
    else ([], x) := by
  show normalizeGo (x + 1) x f = _
  rw [normalizeGo_succ]
  by_cases hth : (LOWER_BOUND >>> 4) * f ≤ x
  · rw [if_pos (And.intro hf hth), if_pos hth]
    have hx : 0 < x := by have := th_pos f hf; omega
    have hlt := shiftRight8_lt x hx
    rw [normalizeGo_mono x (x >>> 8 + 1) (x >>> 8) f hlt (Nat.lt_succ_self _)]
    rfl
  · rw [if_neg, if_neg hth]
    intro h
    exact hth h.2

theorem normalize_upper (f : Nat) (hf : 0 < f) :
    ∀ x, (normalize x f).2 < (LOWER_BOUND >>> 4) * f := by
  intro x
  induction x using Nat.strong_induction_on with
  | _ x ih =>
    rw [normalize_unfold x f hf]
    by_cases hth : (LOWER_BOUND >>> 4) * f ≤ x
    · rw [if_pos hth]
      have hx : 0 < x := by have := th_pos f hf; omega
      exact ih (x >>> 8) (shiftRight8_lt x hx)
    · rw [if_neg hth]
      omega

theorem shiftRight8_th (x f : Nat) (hth : (LOWER_BOUND >>> 4) * f ≤ x) :
    2 ^ 11 * f ≤ x >>> 8 := by
  have h19 : LOWER_BOUND >>> 4 = 2 ^ 19 := rfl
  rw [h19] at hth
  rw [Nat.shiftRight_eq_div_pow]
  have h1 : 2 ^ 19 * f / 2 ^ 8 ≤ x / 2 ^ 8 := Nat.div_le_div_right hth
  have h2 : 2 ^ 19 * f / 2 ^ 8 = 2 ^ 11 * f := by
    have : (2 : Nat) ^ 19 * f = 2 ^ 11 * f * 2 ^ 8 := by ring
    rw [this, Nat.mul_div_cancel _ (by norm_num)]
  omega

theorem normalize_lower (f : Nat) (hf : 0 < f) (hf2 : f ≤ 4095) :
    ∀ x, LOWER_BOUND ≤ x ∨ (LOWER_BOUND >>> 4) * f ≤ x →
      2 ^ 11 * f ≤ (normalize x f).2 := by
  intro x
  induction x using Nat.strong_induction_on with
  | _ x ih =>
    intro hx
    rw [normalize_unfold x f hf]
    by_cases hth : (LOWER_BOUND >>> 4) * f ≤ x
    · rw [if_pos hth]
      have hx0 : 0 < x := by have := th_pos f hf; omega
      by_cases hth2 : (LOWER_BOUND >>> 4) * f ≤ x >>> 8
      · exact ih (x >>> 8) (shiftRight8_lt x hx0) (Or.inr hth2)
      · rw [normalize_unfold (x >>> 8) f hf, if_neg hth2]
        exact shiftRight8_th x f hth
    · rw [if_neg hth]
      rcases hx with hx | hx
      · have hLB : LOWER_BOUND = 2 ^ 23 := rfl
        have : 2 ^ 11 * f ≤ 2 ^ 11 * 4095 := by
          exact Nat.mul_le_mul_left _ hf2
        omega
      · omega

theorem normalize_reconstruct (f : Nat) (hf : 0 < f) :
    ∀ x, List.foldr (fun b acc => acc * 256 + b) (normalize x f).2 (normalize x f).1 = x := by
  intro x
  induction x using Nat.strong_induction_on with
  | _ x ih =>
    rw [normalize_unfold x f hf]
    by_cases hth : (LOWER_BOUND >>> 4) * f ≤ x
    · rw [if_pos hth]
      have hx0 : 0 < x := by have := th_pos f hf; omega
      simp only [List.foldr_cons]
      rw [ih (x >>> 8) (shiftRight8_lt x hx0)]
      rw [Nat.shiftRight_eq_div_pow]
      omega
    · rw [if_neg hth]
      rfl

theorem normalize_empty_iff (x f : Nat) (hf : 0 < f) :
    (normalize x f).1 = [] ↔ x < (LOWER_BOUND >>> 4) * f := by
  rw [normalize_unfold x f hf]
  by_cases hth : (LOWER_BOUND >>> 4) * f ≤ x
  · rw [if_pos hth]
    simp
    omega
  · rw [if_neg hth]
    simp
    omega

theorem renorm_inversion (f : Nat) (hf : 0 < f) :
    ∀ x rest, x < 2 ^ 31 →
      rans_renorm ((normalize x f).1.reverse ++ rest) (normalize x f).2 =
        rans_renorm rest x := by
  intro x
  induction x using Nat.strong_induction_on with
  | _ x ih =>
    intro rest hx31
    rw [normalize_unfold x f hf]
    by_cases hth : (LOWER_BOUND >>> 4) * f ≤ x
    · rw [if_pos hth]
      have hx0 : 0 < x := by have := th_pos f hf; omega
      simp only [List.reverse_cons, List.append_assoc, List.singleton_append]
      rw [ih (x >>> 8) (shiftRight8_lt x hx0) (x % 256 :: rest)
        (by
          have := shiftRight8_lt x hx0
          omega)]
      have hlow : ¬ LOWER_BOUND ≤ x >>> 8 := by
        rw [Nat.shiftRight_eq_div_pow]
        have hLB : LOWER_BOUND = 2 ^ 23 := rfl
        rw [hLB]
        omega
      show rans_renorm (x % 256 :: rest) (x >>> 8) = rans_renorm rest x
      rw [rans_renorm, if_neg hlow]
      congr 1
      rw [Nat.shiftLeft_eq, Nat.shiftRight_eq_div_pow]
      have hxeq : x / 2 ^ 8 * 2 ^ 8 + x % 256 = x := by
        have h256 : (256 : Nat) = 2 ^ 8 := by norm_num
        rw [h256]
        omega
      rw [hxeq, Nat.mod_eq_of_lt (by omega)]
    · rw [if_neg hth]
      simp only [List.reverse_nil, List.nil_append]

theorem update_nowrap (x f c : Nat) (hf : 0 < f) (hx : x < 2 ^ 19 * f) (hfc : f + c ≤ 4096) :
    update x f c = x / f * 4096 + x % f + c := by
  unfold update
  rw [Nat.shiftLeft_eq]
  have hq : x / f < 2 ^ 19 := by
    by_contra hcon
    push_neg at hcon
    have := Nat.div_mul_le_self x f
    have h1 : 2 ^ 19 * f ≤ x / f * f := Nat.mul_le_mul_right f hcon
    omega
  have hr : x % f < f := Nat.mod_lt x hf
  have hbound : x / f * 2 ^ 12 + x % f + c < 2 ^ 32 := by
    have h1 : x / f * 2 ^ 12 ≤ (2 ^ 19 - 1) * 2 ^ 12 := by
      have : x / f ≤ 2 ^ 19 - 1 := by omega
      exact Nat.mul_le_mul_right _ this
    omega
  rw [Nat.mod_eq_of_lt hbound]
  norm_num

theorem update_upper (x f c : Nat) (hf : 0 < f) (hx : x < 2 ^ 19 * f) (hfc : f + c ≤ 4096) :
    update x f c < 2 ^ 31 := by
  rw [update_nowrap x f c hf hx hfc]
  have hq : x / f < 2 ^ 19 := by
    by_contra hcon
    push_neg at hcon
    have := Nat.div_mul_le_self x f
    have h1 : 2 ^ 19 * f ≤ x / f * f := Nat.mul_le_mul_right f hcon
    omega
  have hr : x % f < f := Nat.mod_lt x hf
  have h1 : x / f * 4096 ≤ (2 ^ 19 - 1) * 4096 := by
    have : x / f ≤ 2 ^ 19 - 1 := by omega
    exact Nat.mul_le_mul_right _ this
  omega

theorem update_lower (x f c : Nat) (hf : 0 < f) (hx : 2 ^ 11 * f ≤ x)
    (hx2 : x < 2 ^ 19 * f) (hfc : f + c ≤ 4096) :
    LOWER_BOUND ≤ update x f c := by
  rw [update_nowrap x f c hf hx2 hfc]
  have hq : 2 ^ 11 ≤ x / f := by
    rw [Nat.le_div_iff_mul_le hf]
    omega
  have h1 : 2 ^ 11 * 4096 ≤ x / f * 4096 := Nat.mul_le_mul_right _ hq
  have hLB : LOWER_BOUND = 2 ^ 23 := rfl
  omega

/-- Claim C8: during encoding, each symbol first flushes low bytes while
the state is at least (LOWER_BOUND >> 4) times its frequency (the flushed
bytes reconstruct the original state by successive shifts of eight), and
the following update computes state/freq * 4096 + state mod freq +
cumfreq exactly. -/
theorem c8_encoder_step (x f c : Nat) (hf : 0 < f) (hfc : f + c ≤ 4095) :
    (normalize x f).2 < (LOWER_BOUND >>> 4) * f ∧
    ((normalize x f).1 = [] ↔ x < (LOWER_BOUND >>> 4) * f) ∧
    List.foldr (fun b acc => acc * 256 + b) (normalize x f).2 (normalize x f).1 = x ∧
    update (normalize x f).2 f c =
      (normalize x f).2 / f * 4096 + (normalize x f).2 % f + c := by
  have h19 : LOWER_BOUND >>> 4 = 2 ^ 19 := rfl
  refine ⟨normalize_upper f hf x, normalize_empty_iff x f hf,
    normalize_reconstruct f hf x, ?_⟩
  have hup := normalize_upper f hf x
  rw [h19] at hup
  exact update_nowrap _ f c hf hup (by omega)

/-- Witness for claim C8 at a concrete state, frequency, and cumulative
frequency. -/
theorem c8_encoder_step_witness :
    (normalize (2 ^ 30) 585).2 < (LOWER_BOUND >>> 4) * 585 ∧
    ((normalize (2 ^ 30) 585).1 = [] ↔ 2 ^ 30 < (LOWER_BOUND >>> 4) * 585) ∧
    List.foldr (fun b acc => acc * 256 + b) (normalize (2 ^ 30) 585).2
      (normalize (2 ^ 30) 585).1 = 2 ^ 30 ∧
    update (normalize (2 ^ 30) 585).2 585 1000 =
      (normalize (2 ^ 30) 585).2 / 585 * 4096 + (normalize (2 ^ 30) 585).2 % 585 + 1000 :=
  c8_encoder_step (2 ^ 30) 585 1000 (by decide) (by decide)

theorem cursorFinal_ge (fs : List Feature) (L : Nat) : ∀ pos, pos ≤ cursorFinal fs L pos := by
  induction fs with
  | nil =>
    intro pos
    simp only [cursorFinal]
    split <;> omega
  | cons f rest ih =>
    intro pos
    simp only [cursorFinal]
    have h1 : pos ≤ (if f.position > pos then f.position else pos) := by split <;> omega
    cases hk : featureOp f with
    | none =>
      exact le_trans h1 (ih _)
    | some kl =>
      obtain ⟨k, l⟩ := kl
      refine le_trans ?_ (ih _)
      dsimp only
      by_cases hc : k.consumes_read = true
      · rw [if_pos hc]
        by_cases hgap : f.position > pos
        · rw [if_pos hgap]; omega
        · rw [if_neg hgap]; omega
      · rw [if_neg hc]
        by_cases hgap : f.position > pos
        · rw [if_pos hgap]; omega
        · rw [if_neg hgap]

theorem readConsumedLen_nil : readConsumedLen [] = 0 := rfl

theorem readConsumedLen_cons (op : Op) (ops : List Op) :
    readConsumedLen (op :: ops) =
      (if op.kind.consumes_read then op.len else 0) + readConsumedLen ops := by
  simp only [readConsumedLen, List.filter_cons]
  split <;> simp [Nat.add_comm]

theorem collect_core (fs : List Feature) (L : Nat) :
    ∀ pos fuel, allImplemented fs →
    cursorFinal fs L pos ≤ USIZE_MAX →
    Cigar.measure { features := fs, read_length := L, read_position := pos, next_op := none } < fuel →
    ∃ ops,
      Cigar.collectGo fuel
        { features := fs, read_length := L, read_position := pos, next_op := none } =
          Except.ok ops ∧
      pos + readConsumedLen ops = cursorFinal fs L pos := by
  induction fs with
  | nil =>
    intro pos fuel _ hmax hfuel
    by_cases hposL : pos ≤ L
    · have hm : Cigar.measure
          { features := [], read_length := L, read_position := pos, next_op := none } = 1 := by
        simp [Cigar.measure, hposL]
      rw [hm] at hfuel
      obtain ⟨f1, rfl⟩ : ∃ f1, fuel = f1 + 2 := ⟨fuel - 2, by omega⟩
      have hcf : cursorFinal [] L pos = L + 1 := by simp [cursorFinal, hposL]
      rw [hcf] at hmax
      have hle : pos + (L - pos + 1) ≤ USIZE_MAX := by omega
      have hnext : Cigar.next
          { features := [], read_length := L, read_position := pos, next_op := none } =
          Except.ok (some (Op.new Kind.Match (L - pos + 1),
            { features := [], read_length := L, read_position := pos + (L - pos + 1),
              next_op := none })) := by
        simp only [Cigar.next, Cigar.consume_read, if_pos hposL, if_pos hle]
      have hnext2 : Cigar.next
          { features := [], read_length := L, read_position := pos + (L - pos + 1),
            next_op := none } = Except.ok none := by
        have : ¬ pos + (L - pos + 1) ≤ L := by omega
        simp only [Cigar.next, if_neg this]
      refine ⟨[Op.new Kind.Match (L - pos + 1)], ?_, ?_⟩
      · simp only [Cigar.collectGo, hnext, hnext2]
      · rw [hcf]
        simp [readConsumedLen_cons, readConsumedLen_nil, Op.new, Kind.consumes_read]
        omega
    · have hcf : cursorFinal [] L pos = pos := by simp [cursorFinal, hposL]
      obtain ⟨f1, rfl⟩ : ∃ f1, fuel = f1 + 1 := ⟨fuel - 1, by omega⟩
      have hnext : Cigar.next
          { features := [], read_length := L, read_position := pos, next_op := none } =
          Except.ok none := by
        simp only [Cigar.next, if_neg hposL]
      exact ⟨[], by simp only [Cigar.collectGo, hnext], by rw [hcf]; simp [readConsumedLen_nil]⟩
  | cons f rest ih =>
    intro pos fuel himpl hmax hfuel
    have hfr : (featureOp f).isSome := himpl f (List.mem_cons_self f rest)
    obtain ⟨⟨k, l⟩, hk⟩ := Option.isSome_iff_exists.mp hfr
    have himpl2 : allImplemented rest := fun g hg => himpl g (List.mem_cons_of_mem f hg)
    have hfuel2 : 3 * rest.length + 4 ≤ fuel := by
      simp only [Cigar.measure, List.length_cons, Option.isSome] at hfuel
      split at hfuel <;> omega
    by_cases hgap : f.position > pos
    · -- a gap Match is queued, then the feature operation
      have hcf : cursorFinal (f :: rest) L pos =
          cursorFinal rest L
            (if k.consumes_read then f.position + l else f.position) := by
        simp only [cursorFinal, hk, if_pos hgap]
      set pos2 := if k.consumes_read then f.position + l else f.position with hpos2
      have hpos2max : pos2 ≤ USIZE_MAX := le_trans (cursorFinal_ge rest L pos2) (by rw [← hcf]; exact hmax)
      have hnext : Cigar.next
          { features := f :: rest, read_length := L, read_position := pos, next_op := none } =
          Except.ok (some (Op.new Kind.Match (f.position - pos),
            { features := rest, read_length := L, read_position := pos2,
              next_op := some (k, l) })) := by
        by_cases hc : k.consumes_read = true
        · have hle : f.position + l ≤ USIZE_MAX := by
            rw [hpos2, if_pos hc] at hpos2max; exact hpos2max
          rw [hpos2, if_pos hc]
          simp [Cigar.next, Cigar.consume_read, if_pos hgap, hk, hc, hle]
        · rw [hpos2, if_neg hc]
          simp [Cigar.next, Cigar.consume_read, if_pos hgap, hk, hc]
      obtain ⟨f1, rfl⟩ : ∃ f1, fuel = f1 + 2 := ⟨fuel - 2, by omega⟩
      have hnext2 : Cigar.next
          { features := rest, read_length := L, read_position := pos2,
            next_op := some (k, l) } =
          Except.ok (some (Op.new k l,
            { features := rest, read_length := L, read_position := pos2,
              next_op := none })) := by
        simp only [Cigar.next]
      have hm2 : Cigar.measure
          { features := rest, read_length := L, read_position := pos2, next_op := none } < f1 := by
        have hf3 : 3 * rest.length + 2 ≤ f1 := by omega
        simp [Cigar.measure]
        split <;> omega
      obtain ⟨ops2, hops2, hsum2⟩ := ih pos2 f1 himpl2 (by rw [← hcf]; exact hmax) hm2
      refine ⟨Op.new Kind.Match (f.position - pos) :: Op.new k l :: ops2, ?_, ?_⟩
      · simp only [Cigar.collectGo, hnext, hnext2, hops2]
      · rw [hcf, ← hsum2, readConsumedLen_cons, readConsumedLen_cons]
        have hmm : Kind.consumes_read Kind.Match = true := rfl
        simp only [Op.new, hmm, if_true]
        by_cases hc : k.consumes_read = true
        · rw [if_pos hc, hpos2, if_pos hc]
          omega
        · rw [if_neg hc, hpos2, if_neg hc]
          omega
    · -- the feature operation is emitted directly
      have hcf : cursorFinal (f :: rest) L pos =
          cursorFinal rest L (if k.consumes_read then pos + l else pos) := by
        simp only [cursorFinal, hk, if_neg hgap]
      set pos2 := if k.consumes_read then pos + l else pos with hpos2
      have hpos2max : pos2 ≤ USIZE_MAX := le_trans (cursorFinal_ge rest L pos2) (by rw [← hcf]; exact hmax)
      have hnext : Cigar.next
          { features := f :: rest, read_length := L, read_position := pos, next_op := none } =
          Except.ok (some (Op.new k l,
            { features := rest, read_length := L, read_position := pos2,
              next_op := none })) := by
        by_cases hc : k.consumes_read = true
        · have hle : pos + l ≤ USIZE_MAX := by
            rw [hpos2, if_pos hc] at hpos2max; exact hpos2max
          rw [hpos2, if_pos hc]
          simp [Cigar.next, Cigar.consume_read, if_neg hgap, hk, hc, hle]
        · rw [hpos2, if_neg hc]
          simp [Cigar.next, Cigar.consume_read, if_neg hgap, hk, hc]
      obtain ⟨f1, rfl⟩ : ∃ f1, fuel = f1 + 1 := ⟨fuel - 1, by omega⟩
      have hm2 : Cigar.measure
          { features := rest, read_length := L, read_position := pos2, next_op := none } < f1 := by
        have hf3 : 3 * rest.length + 3 ≤ f1 := by omega
        simp [Cigar.measure]
        split <;> omega
      obtain ⟨ops2, hops2, hsum2⟩ := ih pos2 f1 himpl2 (by rw [← hcf]; exact hmax) hm2
      refine ⟨Op.new k l :: ops2, ?_, ?_⟩
      · simp only [Cigar.collectGo, hnext, hops2]
      · rw [hcf, ← hsum2, readConsumedLen_cons]
        simp only [Op.new]
        by_cases hc : k.consumes_read = true
        · rw [if_pos hc, hpos2, if_pos hc]
          omega
        · rw [if_neg hc, hpos2, if_neg hc]
          omega

/-- Claim C2, evaluation at the failing input: a record whose feature list
contains a ReadBase feature reaches the catch-all todo arm of Cigar::next
and panics, instead of contributing a one-base read-consuming operation
and returning normally as the spec states. -/
theorem c2_readbase_panics :
    Cigar.collect (Cigar.new [Feature.ReadBase 1 65 30] 1) = Except.error Err.todo := by
  rfl

/-- Claim C3 counterexample: a record whose single SoftClip feature carries
three bases against a declared read length of two advances the read cursor
past the read length, yet the derivation returns normally (no fatal error)
with the un-clamped operation list. -/
theorem c3_counterexample :
    Cigar.collect (Cigar.new [Feature.SoftClip 1 [65, 84, 71]] 2) =
       Except.ok [Op.new Kind.SoftClip 3] ∧
    2 < readConsumedLen [Op.new Kind.SoftClip 3] := by
  exact ⟨rfl, by decide⟩

/-- Claim C3 amended: advancing the read cursor past the declared read
length is not detected. For every record whose features all have
implemented kinds and whose final cursor stays within usize, the
derivation returns Ok, and the total of read-consuming lengths equals the
final cursor minus one, never clamped to the read length; the only fatal
cursor condition is arithmetic overflow past usize::MAX. -/
theorem c3_amended (features : List Feature) (L : Nat)
    (himpl : allImplemented features)
    (hmax : cursorFinal features L 1 ≤ USIZE_MAX) :
    ∃ ops, Cigar.collect (Cigar.new features L) = Except.ok ops ∧
      1 + readConsumedLen ops = cursorFinal features L 1 :=
  collect_core features L 1 (Cigar.measure (Cigar.new features L) + 1) himpl hmax
    (Nat.lt_succ_self _)

/-- Witness for the amended claim C3 at a concrete record that overflows
the read length. -/
theorem c3_amended_witness :
    ∃ ops, Cigar.collect (Cigar.new [Feature.SoftClip 1 [7, 8, 9]] 2) = Except.ok ops ∧
      1 + readConsumedLen ops = cursorFinal [Feature.SoftClip 1 [7, 8, 9]] 2 1 :=
  c3_amended [Feature.SoftClip 1 [7, 8, 9]] 2 (by decide) (by decide)

/-- Claim C4 counterexample: a Deletion feature positioned past the read
length makes the gap Match overshoot, so the summed read-consuming lengths
differ from the declared read length while the derivation still succeeds. -/
theorem c4_counterexample :
    Cigar.collect (Cigar.new [Feature.Deletion 10 5] 4) =
      Except.ok [Op.new Kind.Match 9, Op.new Kind.Deletion 5] ∧
    readConsumedLen [Op.new Kind.Match 9, Op.new Kind.Deletion 5] ≠ 4 := by
  exact ⟨rfl, by decide⟩

/-- Claim C4 amended: for every record whose features have implemented
kinds and whose derivation cursor ends exactly at read length plus one
(the features stay within the declared read length), the sum of the
read-consuming operation lengths equals the declared read length. -/
theorem c4_amended (features : List Feature) (L : Nat)
    (himpl : allImplemented features)
    (hfit : cursorFinal features L 1 = L + 1)
    (hL : L < USIZE_MAX) :
    ∃ ops, Cigar.collect (Cigar.new features L) = Except.ok ops ∧
      readConsumedLen ops = L := by
  obtain ⟨ops, hops, hsum⟩ :=
    collect_core features L 1 (Cigar.measure (Cigar.new features L) + 1) himpl
      (by omega) (Nat.lt_succ_self _)
  exact ⟨ops, hops, by omega⟩

/-- Witness for the amended claim C4. -/
theorem c4_amended_witness :
    ∃ ops, Cigar.collect (Cigar.new [Feature.Substitution 2 0] 4) = Except.ok ops ∧
      readConsumedLen ops = 4 :=
  c4_amended [Feature.Substitution 2 0] 4 (by decide) (by decide) (by decide)

/-- Claim C5 counterexample: at read length usize::MAX, deriving CIGAR
from an empty feature list panics on the cursor checked_add instead of
yielding a single Match operation. -/
theorem c5_counterexample :
    Cigar.collect (Cigar.new [] USIZE_MAX) = Except.error Err.addOverflow := by
  rfl

/-- Claim C5 amended: for every read length below usize::MAX, an empty
feature list derives a single Match covering the whole read when the read
length is positive, and an empty operation sequence when it is zero. -/
theorem c5_amended (L : Nat) (hL : L < USIZE_MAX) :
    Cigar.collect (Cigar.new [] L) =
      Except.ok (if L = 0 then [] else [Op.new Kind.Match L]) := by
  cases L with
  | zero => rfl
  | succ n =>
    have hposL : (1 : Nat) ≤ n + 1 := by omega
    have hle : 1 + (n + 1 - 1 + 1) ≤ USIZE_MAX := by omega
    have hnext : Cigar.next
        { features := [], read_length := n + 1, read_position := 1, next_op := none } =
        Except.ok (some (Op.new Kind.Match (n + 1 - 1 + 1),
          { features := [], read_length := n + 1, read_position := 1 + (n + 1 - 1 + 1),
            next_op := none })) := by
      simp only [Cigar.next, Cigar.consume_read, if_pos hposL, if_pos hle]
    have hnext2 : Cigar.next
        { features := [], read_length := n + 1, read_position := 1 + (n + 1 - 1 + 1),
          next_op := none } = Except.ok none := by
      have hgt : ¬ 1 + (n + 1 - 1 + 1) ≤ n + 1 := by omega
      simp only [Cigar.next, if_neg hgt]
    have hm : Cigar.measure
        { features := [], read_length := n + 1, read_position := 1, next_op := none } = 1 := by
      simp [Cigar.measure, hposL]
    have hL0 : ¬ (n + 1 = 0) := by omega
    have harith : n + 1 - 1 + 1 = n + 1 := by omega
    rw [harith] at hnext hnext2
    rw [if_neg hL0]
    unfold Cigar.collect Cigar.new
    rw [hm]
    simp only [Cigar.collectGo, hnext, hnext2]

/-- Witness for the amended claim C5 at read length four. -/
theorem c5_amended_witness :
    Cigar.collect (Cigar.new [] 4) = Except.ok [Op.new Kind.Match 4] := by
  have h := c5_amended 4 (by decide)
  simpa using h

theorem flatMapL_append {α β : Type} (f : α → List β) (l1 l2 : List α) :
    flatMapL f (l1 ++ l2) = flatMapL f l1 ++ flatMapL f l2 := by
  induction l1 with
  | nil => rfl
  | cons a l ih =>
    show f a ++ flatMapL f (l ++ l2) = f a ++ flatMapL f l ++ flatMapL f l2
    rw [ih, List.append_assoc]

theorem mem_flatMapL {α β : Type} (f : α → List β) (x : β) :
    ∀ l : List α, x ∈ flatMapL f l ↔ ∃ a ∈ l, x ∈ f a := by
  intro l
  induction l with
  | nil => simp [flatMapL]
  | cons a l ih => simp [flatMapL, ih]

theorem length_flatMapL_four {β : Type} (f : Nat → List β) (hf : ∀ i, (f i).length = 4) :
    ∀ l : List Nat, (flatMapL f l).length = 4 * l.length := by
  intro l
  induction l with
  | nil => rfl
  | cons a l ih =>
    simp only [flatMapL, List.length_append, ih, hf, List.length_cons]
    ring

theorem count_map_add (c : Nat) : ∀ (m p : Nat),
    (((List.range m).map (fun i => c + i)).count p) = if c ≤ p ∧ p < c + m then 1 else 0 := by
  intro m
  induction m with
  | zero =>
    intro p
    simp only [List.range_zero, List.map_nil, List.count_nil]
    split <;> omega
  | succ m ih =>
    intro p
    rw [List.range_succ, List.map_append, List.count_append, ih]
    simp only [List.map_cons, List.map_nil]
    by_cases hp : p = c + m
    · rw [if_neg (by omega), List.count_cons, List.count_nil]
      simp [hp]
    · have hc : (List.count p [c + m]) = 0 := by
        simp [List.count_cons, List.count_nil]
        omega
      rw [hc]
      split <;> split <;> omega

theorem count_flatPart (Q : Nat) : ∀ (k p : Nat), k ≤ Q →
    ((flatMapL (fun i => [(0, i), (1, Q + i), (2, 2 * Q + i), (3, 3 * Q + i)])
        (List.range k)).map Prod.snd).count p
      = if p % Q < k ∧ p < 4 * Q then 1 else 0 := by
  intro k
  induction k with
  | zero =>
    intro p _
    simp only [List.range_zero, flatMapL, List.map_nil, List.count_nil]
    split <;> omega
  | succ k ih =>
    intro p hk
    have hQ : 0 < Q := by omega
    rw [List.range_succ, flatMapL_append, List.map_append, List.count_append, ih p (by omega)]
    have hsingle : flatMapL (fun i => [(0, i), (1, Q + i), (2, 2 * Q + i), (3, 3 * Q + i)])
        [k] = [(0, k), (1, Q + k), (2, 2 * Q + k), (3, 3 * Q + k)] := by
      simp [flatMapL]
    rw [hsingle]
    have hkQ : k < Q := by omega
    have hm0 : k % Q = k := Nat.mod_eq_of_lt hkQ
    have hm1 : (Q + k) % Q = k := by
      rw [show Q + k = k + Q * 1 by ring, Nat.add_mul_mod_self_left, hm0]
    have hm2 : (2 * Q + k) % Q = k := by
      rw [show 2 * Q + k = k + Q * 2 by ring, Nat.add_mul_mod_self_left, hm0]
    have hm3 : (3 * Q + k) % Q = k := by
      rw [show 3 * Q + k = k + Q * 3 by ring, Nat.add_mul_mod_self_left, hm0]
    have hcnt : (([(0, k), (1, Q + k), (2, 2 * Q + k), (3, 3 * Q + k)].map Prod.snd).count p)
        = if p % Q = k ∧ p < 4 * Q then 1 else 0 := by
      simp only [List.map_cons, List.map_nil, List.count_cons, List.count_nil]
      by_cases hcond : p % Q = k ∧ p < 4 * Q
      · rw [if_pos hcond]
        obtain ⟨h1, h2⟩ := hcond
        have hdm := Nat.div_add_mod p Q
        have hj : p / Q < 4 := Nat.div_lt_of_lt_mul (show p < Q * 4 by omega)
        obtain ⟨D, hD⟩ : ∃ D, p / Q = D := ⟨_, rfl⟩
        rw [hD] at hdm hj
        have hcases : p = k ∨ p = Q + k ∨ p = 2 * Q + k ∨ p = 3 * Q + k := by
          rcases (by omega : D = 0 ∨ D = 1 ∨ D = 2 ∨ D = 3) with h | h | h | h <;>
            rw [h] at hdm <;> omega
        rcases hcases with h | h | h | h <;> rw [h] <;>
          simp only [beq_iff_eq] <;> split_ifs <;> omega
      · rw [if_neg hcond]
        have hn0 : p ≠ k := by
          intro h
          exact hcond (by subst h; exact ⟨hm0, by omega⟩)
        have hn1 : p ≠ Q + k := by
          intro h
          exact hcond (by subst h; exact ⟨hm1, by omega⟩)
        have hn2 : p ≠ 2 * Q + k := by
          intro h
          exact hcond (by subst h; exact ⟨hm2, by omega⟩)
        have hn3 : p ≠ 3 * Q + k := by
          intro h
          exact hcond (by subst h; exact ⟨hm3, by omega⟩)
        simp [hn0, hn1, hn2, hn3]
        omega
    rw [hcnt]
    by_cases h4 : p < 4 * Q
    · by_cases hmk : p % Q < k
      · rw [if_pos ⟨hmk, h4⟩, if_neg (by omega), if_pos ⟨by omega, h4⟩]
      · by_cases hme : p % Q = k
        · rw [if_neg (by omega), if_pos ⟨hme, h4⟩, if_pos ⟨by omega, h4⟩]
        · rw [if_neg (by omega), if_neg (by omega), if_neg (by omega)]
    · rw [if_neg (by omega), if_neg (by omega), if_neg (by omega)]

theorem decode1Main_lengths (F : Nat → Nat → Nat) :
    ∀ k lanes input c0 c1 c2 c3 lf rest,
      decode1Main F k lanes input = Except.ok ((c0, c1, c2, c3), lf, rest) →
      c0.length = k ∧ c1.length = k ∧ c2.length = k ∧ c3.length = k := by
  intro k
  induction k with
  | zero =>
    intro lanes input c0 c1 c2 c3 lf rest h
    simp only [decode1Main, Except.ok.injEq, Prod.mk.injEq] at h
    obtain ⟨⟨h0, h1, h2, h3⟩, -, -⟩ := h
    rw [← h0, ← h1, ← h2, ← h3]
    exact ⟨rfl, rfl, rfl, rfl⟩
  | succ k ih =>
    intro lanes input c0 c1 c2 c3 lf rest h
    simp only [decode1Main] at h
    cases h0 : rans_decode_1_step F (lanes 0) input with
    | error e => simp only [h0] at h; exact Except.noConfusion h
    | ok t0 =>
      obtain ⟨s0, l0, in0⟩ := t0
      simp only [h0] at h
      cases h1 : rans_decode_1_step F (lanes 1) in0 with
      | error e => simp only [h1] at h; exact Except.noConfusion h
      | ok t1 =>
        obtain ⟨s1, l1, in1⟩ := t1
        simp only [h1] at h
        cases h2 : rans_decode_1_step F (lanes 2) in1 with
        | error e => simp only [h2] at h; exact Except.noConfusion h
        | ok t2 =>
          obtain ⟨s2, l2, in2⟩ := t2
          simp only [h2] at h
          cases h3 : rans_decode_1_step F (lanes 3) in2 with
          | error e => simp only [h3] at h; exact Except.noConfusion h
          | ok t3 =>
            obtain ⟨s3, l3, in3⟩ := t3
            simp only [h3] at h
            cases h4 : decode1Main F k
                (setf (setf (setf (setf lanes 0 l0) 1 l1) 2 l2) 3 l3) in3 with
            | error e => simp only [h4] at h; exact Except.noConfusion h
            | ok t4 =>
              obtain ⟨⟨d0, d1, d2, d3⟩, lf2, rest2⟩ := t4
              simp only [h4, Except.ok.injEq, Prod.mk.injEq] at h
              obtain ⟨⟨e0, e1, e2, e3⟩, -, -⟩ := h
              obtain ⟨g0, g1, g2, g3⟩ := ih _ _ _ _ _ _ _ _ h4
              rw [← e0, ← e1, ← e2, ← e3]
              simp [List.length_cons, g0, g1, g2, g3]

theorem decode1Rem_length (F : Nat → Nat → Nat) :
    ∀ k rl input out rlf rest,
      decode1Rem F k rl input = Except.ok (out, rlf, rest) → out.length = k := by
  intro k
  induction k with
  | zero =>
    intro rl input out rlf rest h
    simp only [decode1Rem, Except.ok.injEq, Prod.mk.injEq] at h
    rw [← h.1]
    rfl
  | succ k ih =>
    intro rl input out rlf rest h
    simp only [decode1Rem] at h
    cases h0 : rans_decode_1_step F rl input with
    | error e => simp only [h0] at h; exact Except.noConfusion h
    | ok t0 =>
      obtain ⟨s, rl2, in2⟩ := t0
      simp only [h0] at h
      cases h1 : decode1Rem F k rl2 in2 with
      | error e => simp only [h1] at h; exact Except.noConfusion h
      | ok t1 =>
        obtain ⟨out2, rlf2, rest2⟩ := t1
        simp only [h1, Except.ok.injEq, Prod.mk.injEq] at h
        rw [← h.1]
        simp only [List.length_cons, ih _ _ _ _ _ h1]

/-- Claim C9: the order-1 decoder splits the output buffer of length n
into four contiguous chunks in order, the first three of length n / 4 and
the fourth of length n - 3 * (n / 4); each output position is written by
the lane owning its chunk, and the write schedule touches every position
of the buffer exactly once. -/
theorem c9_order1_chunking (n : Nat) :
    (∀ p, p < n → ((decode1Schedule n).map Prod.snd).count p = 1) ∧
    ((decode1Schedule n).map Prod.snd).length = n ∧
    (∀ jp ∈ decode1Schedule n, jp.1 < 4 ∧
      (jp.1 < 3 → jp.1 * (n / 4) ≤ jp.2 ∧ jp.2 < (jp.1 + 1) * (n / 4)) ∧
      (jp.1 = 3 → 3 * (n / 4) ≤ jp.2 ∧ jp.2 < n)) ∧
    (∀ input c0 c1 c2 c3 rest,
      rans_decode_1 input n = Except.ok ((c0, c1, c2, c3), rest) →
      c0.length = n / 4 ∧ c1.length = n / 4 ∧ c2.length = n / 4 ∧
      c3.length = n - 3 * (n / 4) ∧ (c0 ++ c1 ++ c2 ++ c3).length = n) := by
  have h4Q : 4 * (n / 4) ≤ n := by
    have := Nat.div_mul_le_self n 4
    omega
  refine ⟨?_, ?_, ?_, ?_⟩
  · intro p hp
    unfold decode1Schedule
    rw [List.map_append, List.count_append, count_flatPart (n / 4) (n / 4) p (le_refl _)]
    have hrem := count_map_add (4 * (n / 4)) (n - 4 * (n / 4)) p
    have hrem2 : (((List.range (n - 4 * (n / 4))).map (fun m => (3, 4 * (n / 4) + m))).map
        Prod.snd) = (List.range (n - 4 * (n / 4))).map (fun i => 4 * (n / 4) + i) := by
      rw [List.map_map]
      rfl
    rw [hrem2, hrem]
    by_cases hlt : p < 4 * (n / 4)
    · have hQpos : 0 < n / 4 := by omega
      rw [if_pos ⟨Nat.mod_lt p hQpos, hlt⟩, if_neg (by omega)]
    · rw [if_neg (by omega), if_pos ⟨by omega, by omega⟩]
  · unfold decode1Schedule
    simp only [List.map_append, List.length_append, List.length_map, List.length_range,
      length_flatMapL_four
        (fun i => [(0, i), (1, n / 4 + i), (2, 2 * (n / 4) + i), (3, 3 * (n / 4) + i)])
        (fun i => rfl)]
    omega
  · intro jp hjp
    unfold decode1Schedule at hjp
    rw [List.mem_append] at hjp
    rcases hjp with hjp | hjp
    · rw [mem_flatMapL] at hjp
      obtain ⟨i, hi, hmem⟩ := hjp
      rw [List.mem_range] at hi
      simp only [List.mem_cons, List.not_mem_nil, or_false] at hmem
      rcases hmem with rfl | rfl | rfl | rfl
      · exact ⟨by omega, fun _ => ⟨by omega, by omega⟩, fun hc => by omega⟩
      · exact ⟨by omega, fun _ => ⟨by omega, by omega⟩, fun hc => by omega⟩
      · exact ⟨by omega, fun _ => ⟨by omega, by omega⟩, fun hc => by omega⟩
      · refine ⟨by omega, fun hc => by omega, fun _ => ⟨by omega, by omega⟩⟩
    · rw [List.mem_map] at hjp
      obtain ⟨m, hm, rfl⟩ := hjp
      rw [List.mem_range] at hm
      refine ⟨by omega, fun hc => by omega, fun _ => ⟨by omega, by omega⟩⟩
  · intro input c0 c1 c2 c3 rest h
    unfold rans_decode_1 at h
    cases h0 : read_frequencies_1 input with
    | error e => simp only [h0] at h; exact Except.noConfusion h
    | ok t0 =>
      obtain ⟨F, r1⟩ := t0
      simp only [h0] at h
      cases h1 : read_states r1 with
      | error e => simp only [h1] at h; exact Except.noConfusion h
      | ok t1 =>
        obtain ⟨states, r2⟩ := t1
        simp only [h1] at h
        cases h2 : decode1Main F (n / 4) (fun j => (states j, 0)) r2 with
        | error e => simp only [h2] at h; exact Except.noConfusion h
        | ok t2 =>
          obtain ⟨⟨d0, d1, d2, d3⟩, lanesf, r3⟩ := t2
          simp only [h2] at h
          cases h3 : decode1Rem F (n - 3 * (n / 4) - n / 4) (lanesf 3) r3 with
          | error e => simp only [h3] at h; exact Except.noConfusion h
          | ok t3 =>
            obtain ⟨d3b, rlf, rest2⟩ := t3
            simp only [h3, Except.ok.injEq, Prod.mk.injEq] at h
            obtain ⟨⟨e0, e1, e2, e3⟩, -⟩ := h
            obtain ⟨g0, g1, g2, g3⟩ := decode1Main_lengths F _ _ _ _ _ _ _ _ _ h2
            have g4 := decode1Rem_length F _ _ _ _ _ _ h3
            rw [← e0, ← e1, ← e2, ← e3]
            simp only [List.length_append, g0, g1, g2, g3, g4]
            exact ⟨trivial, trivial, trivial, by omega, by omega⟩

/-- Witness for claim C9 at a concrete successful order-1 decode of five
bytes. -/
theorem c9_order1_chunking_witness :
    ([0] : List Nat).length = 5 / 4 ∧ ([0] : List Nat).length = 5 / 4 ∧
    ([0] : List Nat).length = 5 / 4 ∧ ([0, 0] : List Nat).length = 5 - 3 * (5 / 4) ∧
    (([0] : List Nat) ++ [0] ++ [0] ++ [0, 0]).length = 5 :=
  (c9_order1_chunking 5).2.2.2
    ([0x00, 0x00, 0x90, 0x00, 0x00, 0x00] ++ le32 0x800000 ++ le32 0x800000 ++
      le32 0x800000 ++ le32 0x800000)
    [0] [0] [0] [0, 0] [] (by decide)

set_option maxRecDepth 100000 in
set_option maxHeartbeats 2000000 in
/-- Claim C6: encoding the seven bytes of the word noodles with order
Zero produces exactly the fixed test-vector byte sequence of
test_encode_with_order_0, and decoding that sequence with declared output
length 7 reproduces the input. -/
theorem c6_known_vector :
    rans_encode Order.Zero [0x6e, 0x6f, 0x6f, 0x64, 0x6c, 0x65, 0x73] =
      [0x00, 0x25, 0x00, 0x00, 0x00, 0x07, 0x00, 0x00, 0x00, 0x64, 0x82, 0x49, 0x65, 0x00,
       0x82, 0x49, 0x6c, 0x82, 0x49, 0x6e, 0x82, 0x49, 0x6f, 0x00, 0x84, 0x92, 0x73, 0x82,
       0x49, 0x00, 0xe2, 0x06, 0x83, 0x18, 0x74, 0x7b, 0x41, 0x0c, 0x2b, 0xa9, 0x41, 0x0c,
       0x25, 0x31, 0x80, 0x03] ∧
    rans_decode
      [0x00, 0x25, 0x00, 0x00, 0x00, 0x07, 0x00, 0x00, 0x00, 0x64, 0x82, 0x49, 0x65, 0x00,
       0x82, 0x49, 0x6c, 0x82, 0x49, 0x6e, 0x82, 0x49, 0x6f, 0x00, 0x84, 0x92, 0x73, 0x82,
       0x49, 0x00, 0xe2, 0x06, 0x83, 0x18, 0x74, 0x7b, 0x41, 0x0c, 0x2b, 0xa9, 0x41, 0x0c,
       0x25, 0x31, 0x80, 0x03] 7 =
      Except.ok [0x6e, 0x6f, 0x6f, 0x64, 0x6c, 0x65, 0x73] := by
  constructor
  · decide
  · decide

/-- Claim C7: read_container yields the clean end-of-stream signal none,
not an error, both at an exhausted stream and for a container header
reporting length 0. -/
theorem c7_container_eos :
    read_container [] = Except.ok (none, []) ∧
    read_container
        (le32 0 ++ le32 5 ++ le32 1 ++ le32 2 ++ le32 3 ++ le32 1 ++ le32 9) =
      Except.ok (none, []) := by
  constructor
  · rfl
  · rfl

/-- Claim C10: the QualityScores view reports len equal to the declared
read length, and is_empty exactly when that length is zero, for every
feature list. -/
theorem c10_quality_scores_len (features : List Feature) (L : Nat) :
    (QualityScores.new features L).len = L ∧
      ((QualityScores.new features L).is_empty = true ↔ L = 0) := by
  constructor
  · rfl
  · simp [QualityScores.is_empty, QualityScores.len, QualityScores.new]

/-! Frequency-table invariants of the normalized model. -/

theorem sum_map_setf (f : Nat → Nat) (i v : Nat) :
    ∀ l : List Nat, l.Nodup → i ∈ l →
      (l.map (setf f i v)).sum + f i = (l.map f).sum + v := by
  intro l
  induction l with
  | nil => intro _ hi; exact absurd hi (List.not_mem_nil i)
  | cons a l ih =>
    intro hnd hi
    obtain ⟨hna, hndl⟩ := List.nodup_cons.mp hnd
    by_cases hia : i = a
    · subst hia
      have hmap : l.map (setf f i v) = l.map f := by
        apply List.map_congr_left
        intro j hj
        have hji : j ≠ i := fun h => hna (h ▸ hj)
        simp [setf, hji]
      simp only [List.map_cons, List.sum_cons, hmap]
      have hv : setf f i v i = v := by simp [setf]
      rw [hv]
      omega
    · have hil : i ∈ l := by
        rcases List.mem_cons.mp hi with h | h
        · exact absurd h hia
        · exact h
      have hstep := ih hndl hil
      have hsa : setf f i v a = f a := by
        simp only [setf]
        rw [if_neg (fun h => hia h.symm)]
      simp only [List.map_cons, List.sum_cons, hsa]
      omega

theorem freqTotal_setf (f : Nat → Nat) (i v : Nat) (hi : i < 256) :
    freqTotal (setf f i v) + f i = freqTotal f + v :=
  sum_map_setf f i v (List.range 256) (List.nodup_range 256) (List.mem_range.mpr hi)

theorem maxIndex_fold (f : Nat → Nat) :
    ∀ (l : List Nat) (acc : Nat × Nat),
      (∀ s ∈ l, f s ≤ (l.foldl (fun acc i => if acc.1 ≤ f i then (f i, i) else acc) acc).1) ∧
      acc.1 ≤ (l.foldl (fun acc i => if acc.1 ≤ f i then (f i, i) else acc) acc).1 ∧
      ((l.foldl (fun acc i => if acc.1 ≤ f i then (f i, i) else acc) acc) = acc ∨
        ((l.foldl (fun acc i => if acc.1 ≤ f i then (f i, i) else acc) acc).2 ∈ l ∧
          (l.foldl (fun acc i => if acc.1 ≤ f i then (f i, i) else acc) acc).1 =
            f (l.foldl (fun acc i => if acc.1 ≤ f i then (f i, i) else acc) acc).2)) := by
  intro l
  induction l with
  | nil =>
    intro acc
    exact ⟨fun s hs => absurd hs (List.not_mem_nil s), le_refl _, Or.inl rfl⟩
  | cons a l ih =>
    intro acc
    simp only [List.foldl_cons]
    obtain ⟨ih1, ih2, ih3⟩ := ih (if acc.1 ≤ f a then (f a, a) else acc)
    have hstep : acc.1 ≤ (if acc.1 ≤ f a then ((f a, a) : Nat × Nat) else acc).1 := by
      split <;> simp_all
    have hfa : f a ≤ (if acc.1 ≤ f a then ((f a, a) : Nat × Nat) else acc).1 := by
      split <;> simp_all
      omega
    refine ⟨?_, le_trans hstep ih2, ?_⟩
    · intro s hs
      rcases List.mem_cons.mp hs with rfl | hsl
      · exact le_trans hfa ih2
      · exact ih1 s hsl
    · rcases ih3 with heq | ⟨hmem, hval⟩
      · rw [heq]
        by_cases hc : acc.1 ≤ f a
        · rw [if_pos hc]
          exact Or.inr ⟨List.mem_cons_self a l, rfl⟩
        · rw [if_neg hc]
          exact Or.inl rfl
      · exact Or.inr ⟨List.mem_cons_of_mem a hmem, hval⟩

theorem maxIndex_lt (f : Nat → Nat) : maxIndex f < 256 := by
  obtain ⟨-, -, h3⟩ := maxIndex_fold f (List.range 256) (0, 0)
  unfold maxIndex
  rcases h3 with heq | ⟨hmem, -⟩
  · rw [heq]
    norm_num
  · exact List.mem_range.mp hmem

theorem maxIndex_attains (f : Nat → Nat) (s : Nat) (hs : s < 256) :
    f s ≤ f (maxIndex f) := by
  obtain ⟨h1, -, h3⟩ := maxIndex_fold f (List.range 256) (0, 0)
  have hfs := h1 s (List.mem_range.mpr hs)
  unfold maxIndex
  rcases h3 with heq | ⟨-, hval⟩
  · rw [heq] at hfs ⊢
    simp only at hfs
    omega
  · rw [← hval]
    exact hfs

theorem le_freqTotal (f : Nat → Nat) (s : Nat) (hs : s < 256) : f s ≤ freqTotal f := by
  have hmem : f s ∈ (List.range 256).map f :=
    List.mem_map.mpr ⟨s, List.mem_range.mpr hs, rfl⟩
  exact List.single_le_sum (fun x _ => Nat.zero_le x) _ hmem

theorem freqTotal_le_card (f : Nat → Nat) (h1 : ∀ s, s < 256 → f s ≤ 1) :
    freqTotal f ≤ 256 := by
  have hle : ((List.range 256).map f).sum ≤ ((List.range 256).map (fun _ => 1)).sum := by
    apply List.sum_le_sum
    intro i hi
    exact h1 i (List.mem_range.mp hi)
  have hone : ((List.range 256).map (fun _ => 1)).sum = 256 := by
    rw [List.map_const', List.sum_replicate, List.length_range, smul_eq_mul, Nat.mul_one]
  unfold freqTotal
  omega

theorem fixOvershootGo_total : ∀ (fuel : Nat) (f : Nat → Nat),
    SCALE ≤ freqTotal f → freqTotal f ≤ SCALE + fuel →
    freqTotal (fixOvershootGo fuel f) = SCALE := by
  intro fuel
  induction fuel with
  | zero =>
    intro f h1 h2
    show freqTotal f = SCALE
    omega
  | succ fuel ih =>
    intro f h1 h2
    show freqTotal (if SCALE < freqTotal f then _ else f) = SCALE
    by_cases hov : SCALE < freqTotal f
    · rw [if_pos hov]
      have hmi := maxIndex_lt f
      have hbig : 2 ≤ f (maxIndex f) := by
        by_contra hcon
        push_neg at hcon
        have hall : ∀ s, s < 256 → f s ≤ 1 := by
          intro s hs
          have := maxIndex_attains f s hs
          omega
        have := freqTotal_le_card f hall
        have hSC : SCALE = 4095 := rfl
        omega
      set m := maxIndex f with hm
      set take := min (freqTotal f - SCALE) (f m - 1) with htake
      have htake1 : take ≤ f m - 1 := Nat.min_le_right _ _
      have htake2 : take ≤ freqTotal f - SCALE := Nat.min_le_left _ _
      have htake3 : 1 ≤ take := le_min (by omega) (by omega)
      have hset := freqTotal_setf f m (f m - take) hmi
      have htot : freqTotal (setf f m (f m - take)) = freqTotal f - take := by omega
      apply ih
      · rw [htot]
        omega
      · rw [htot]
        omega
    · rw [if_neg hov]
      show freqTotal f = SCALE
      omega

theorem fixOvershootGo_pos : ∀ (fuel : Nat) (f : Nat → Nat) (s : Nat),
    0 < f s → 0 < fixOvershootGo fuel f s := by
  intro fuel
  induction fuel with
  | zero => intro f s h; exact h
  | succ fuel ih =>
    intro f s h
    show 0 < (if SCALE < freqTotal f then _ else f) s
    by_cases hov : SCALE < freqTotal f
    · rw [if_pos hov]
      apply ih
      simp only [setf]
      split
      · rename_i hsm
        have h2 : min (freqTotal f - SCALE) (f (maxIndex f) - 1) ≤ f (maxIndex f) - 1 :=
          Nat.min_le_right _ _
        rw [hsm] at h
        omega
      · exact h
    · rw [if_neg hov]
      exact h

theorem fixOvershootGo_untouched : ∀ (fuel : Nat) (f : Nat → Nat) (s : Nat),
    256 ≤ s → fixOvershootGo fuel f s = f s := by
  intro fuel
  induction fuel with
  | zero => intro f s _; rfl
  | succ fuel ih =>
    intro f s hs
    show (if SCALE < freqTotal f then _ else f) s = f s
    by_cases hov : SCALE < freqTotal f
    · rw [if_pos hov, ih _ s hs]
      have hmi := maxIndex_lt f
      simp only [setf]
      rw [if_neg (by omega)]
    · rw [if_neg hov]

theorem normalize_frequencies_total (counts : Nat → Nat) (h : 0 < freqTotal counts) :
    freqTotal (normalize_frequencies counts) = SCALE := by
  unfold normalize_frequencies
  rw [if_neg (by omega)]
  set fl := floorScaled counts (freqTotal counts) with hfl
  by_cases hlt : freqTotal fl < SCALE
  · rw [if_pos hlt]
    have hmi := maxIndex_lt counts
    have hset := freqTotal_setf fl (maxIndex counts)
      (fl (maxIndex counts) + (SCALE - freqTotal fl)) hmi
    omega
  · rw [if_neg hlt]
    exact fixOvershootGo_total (freqTotal fl) fl (by omega) (by omega)

theorem normalize_frequencies_pos (counts : Nat → Nat) (s : Nat) (hs : s < 256)
    (hcs : 0 < counts s) : 0 < normalize_frequencies counts s := by
  have htot : 0 < freqTotal counts := by
    have := le_freqTotal counts s hs
    omega
  have hflpos : 0 < floorScaled counts (freqTotal counts) s := by
    unfold floorScaled
    rw [if_pos hs]
    split
    · omega
    · rename_i hcond
      rw [Classical.not_and_iff_or_not_not] at hcond
      rcases hcond with hcond | hcond
      · exact Nat.pos_of_ne_zero hcond
      · exact absurd hcs hcond
  unfold normalize_frequencies
  rw [if_neg (by omega)]
  set fl := floorScaled counts (freqTotal counts) with hfl
  by_cases hlt : freqTotal fl < SCALE
  · rw [if_pos hlt]
    simp only [setf]
    split
    · rename_i heq
      rw [heq] at hflpos
      omega
    · exact hflpos
  · rw [if_neg hlt]
    exact fixOvershootGo_pos _ fl s hflpos

theorem normalize_frequencies_dom (counts : Nat → Nat) (s : Nat) (hs : 256 ≤ s) :
    normalize_frequencies counts s = 0 := by
  unfold normalize_frequencies
  by_cases h0 : freqTotal counts = 0
  · rw [if_pos h0]
  · rw [if_neg h0]
    set fl := floorScaled counts (freqTotal counts) with hfl
    have hfls : fl s = 0 := by
      rw [hfl]
      unfold floorScaled
      rw [if_neg (by omega)]
    by_cases hlt : freqTotal fl < SCALE
    · rw [if_pos hlt]
      have hmi := maxIndex_lt counts
      simp only [setf]
      rw [if_neg (by omega)]
      exact hfls
    · rw [if_neg hlt]
      rw [fixOvershootGo_untouched _ fl s hs]
      exact hfls

theorem normalize_frequencies_le (counts : Nat → Nat) (h : 0 < freqTotal counts) (s : Nat) :
    normalize_frequencies counts s ≤ SCALE := by
  by_cases hs : s < 256
  · have := le_freqTotal (normalize_frequencies counts) s hs
    rw [normalize_frequencies_total counts h] at this
    exact this
  · rw [normalize_frequencies_dom counts s (by omega)]
    exact Nat.zero_le _

/-! Cumulative-frequency lemmas. -/

theorem cfreq_succ (f : Nat → Nat) (s : Nat) : cfreq f (s + 1) = cfreq f s + f s := by
  unfold cfreq
  rw [List.range_succ, List.map_append, List.sum_append]
  simp

theorem cfreq_mono (f : Nat → Nat) (a b : Nat) (hab : a ≤ b) : cfreq f a ≤ cfreq f b := by
  induction b with
  | zero =>
    have ha : a = 0 := by omega
    rw [ha]
  | succ b ih =>
    by_cases hb : a ≤ b
    · have := ih hb
      rw [cfreq_succ]
      omega
    · have ha : a = b + 1 := by omega
      rw [ha]

theorem cfreq_le_total (f : Nat → Nat) (s : Nat) (hs : s ≤ 256) :
    cfreq f s ≤ freqTotal f := by
  have h1 : cfreq f s ≤ cfreq f 256 := cfreq_mono f s 256 hs
  have h2 : cfreq f 256 = freqTotal f := rfl
  omega

theorem normalized_cfreq_bound (counts : Nat → Nat) (h : 0 < freqTotal counts) (s : Nat)
    (hs : s < 256) :
    cfreq (normalize_frequencies counts) s + normalize_frequencies counts s ≤ 4095 := by
  rw [← cfreq_succ]
  have h1 := cfreq_le_total (normalize_frequencies counts) (s + 1) (by omega)
  rw [normalize_frequencies_total counts h] at h1
  exact h1

/-! Symbol lookup correctness. -/

theorem lookupGo_correct (f : Nat → Nat) (v s : Nat) (hlow : cfreq f s ≤ v)
    (hhigh : v < cfreq f s + f s) :
    ∀ (fuel start : Nat), start ≤ s → s < start + fuel → lookupGo f v fuel start = s := by
  intro fuel
  induction fuel with
  | zero => intro start h1 h2; omega
  | succ fuel ih =>
    intro start h1 h2
    show (if cfreq f start ≤ v ∧ v < cfreq f start + f start then start
      else lookupGo f v fuel (start + 1)) = s
    by_cases heq : start = s
    · subst heq
      rw [if_pos ⟨hlow, hhigh⟩]
    · have hlt : start < s := by omega
      have hstep : cfreq f start + f start ≤ cfreq f s := by
        rw [← cfreq_succ]
        exact cfreq_mono f (start + 1) s (by omega)
      rw [if_neg (by omega)]
      exact ih (start + 1) (by omega) (by omega)

theorem lookupSymbol_correct (f : Nat → Nat) (v s : Nat) (hs : s < 256)
    (hlow : cfreq f s ≤ v) (hhigh : v < cfreq f s + f s) : lookupSymbol f v = s :=
  lookupGo_correct f v s hlow hhigh 256 0 (Nat.zero_le s) (by omega)

/-! The single-lane step inversion: decoding one state undoes one encoder
symbol step (flush, then update) exactly, restoring the pre-step state and
consuming exactly the flushed bytes. -/

theorem rans_renorm_done (input : List Nat) (r : Nat) (hr : LOWER_BOUND ≤ r) :
    rans_renorm input r = Except.ok (r, input) := by
  cases input with
  | nil => simp [rans_renorm, hr]
  | cons b rest => simp [rans_renorm, hr]

theorem rans_step_inversion (ftab : Nat → Nat) (s x0 : Nat) (rest : List Nat)
    (hs : s < 256) (hf : 0 < ftab s) (hcf : cfreq ftab s + ftab s ≤ 4095)
    (hx0L : LOWER_BOUND ≤ x0) (hx0U : x0 < 2 ^ 31) :
    lookupSymbol ftab (rans_get_cumulative_freq
      (update (normalize x0 (ftab s)).2 (ftab s) (cfreq ftab s))) = s ∧
    rans_renorm ((normalize x0 (ftab s)).1.reverse ++ rest)
      (rans_advance_step (update (normalize x0 (ftab s)).2 (ftab s) (cfreq ftab s))
        (ftab s) (cfreq ftab s)) = Except.ok (x0, rest) ∧
    LOWER_BOUND ≤ update (normalize x0 (ftab s)).2 (ftab s) (cfreq ftab s) ∧
    update (normalize x0 (ftab s)).2 (ftab s) (cfreq ftab s) < 2 ^ 31 := by
  set f := ftab s with hfdef
  set c := cfreq ftab s with hcdef
  set x1 := (normalize x0 f).2 with hx1def
  have hfle : f ≤ 4095 := by omega
  have hx1U : x1 < 2 ^ 19 * f := by
    have := normalize_upper f hf x0
    rwa [show (LOWER_BOUND >>> 4) = 2 ^ 19 from rfl] at this
  have hx1L : 2 ^ 11 * f ≤ x1 := normalize_lower f hf hfle x0 (Or.inl hx0L)
  have hx2eq : update x1 f c = x1 / f * 4096 + x1 % f + c :=
    update_nowrap x1 f c hf hx1U (by omega)
  have hmodf : x1 % f < f := Nat.mod_lt _ hf
  have hvlt : x1 % f + c < 4096 := by omega
  have hx2mod : update x1 f c % 4096 = x1 % f + c := by
    rw [hx2eq, Nat.add_assoc, Nat.mul_comm (x1 / f) 4096, Nat.mul_add_mod,
      Nat.mod_eq_of_lt hvlt]
  have hx2div : update x1 f c >>> 12 = x1 / f := by
    rw [Nat.shiftRight_eq_div_pow, hx2eq, Nat.add_assoc]
    rw [show (2 : Nat) ^ 12 = 4096 from rfl]
    rw [Nat.mul_comm (x1 / f) 4096, Nat.mul_add_div (by norm_num)]
    rw [Nat.div_eq_of_lt hvlt, Nat.add_zero]
  have hx1lt31 : x1 < 2 ^ 31 := by
    have h1 : 2 ^ 19 * f ≤ 2 ^ 19 * 4095 := Nat.mul_le_mul_left _ hfle
    omega
  have hlook : lookupSymbol ftab (rans_get_cumulative_freq (update x1 f c)) = s := by
    show lookupSymbol ftab (update x1 f c % 4096) = s
    rw [hx2mod]
    exact lookupSymbol_correct ftab (x1 % f + c) s hs (by omega) (by omega)
  have hadv : rans_advance_step (update x1 f c) f c = x1 := by
    unfold rans_advance_step
    rw [hx2div, hx2mod]
    rw [Nat.mod_eq_of_lt (show c < 2 ^ 32 by omega)]
    have hdm : f * (x1 / f) + x1 % f = x1 := Nat.div_add_mod x1 f
    have hsum : f * (x1 / f) + (x1 % f + c) + (2 ^ 32 - c) = x1 + 2 ^ 32 := by omega
    rw [hsum, Nat.add_mod_right, Nat.mod_eq_of_lt (by omega)]
  refine ⟨hlook, ?_, ?_, ?_⟩
  · rw [hadv, renorm_inversion f hf x0 rest hx0U]
    exact rans_renorm_done rest x0 hx0L
  · exact update_lower x1 f c hf hx1L hx1U (by omega)
  · exact update_upper x1 f c hf hx1U (by omega)

/-! Serialization round trips: variable-length frequency, little-endian
u32, lane states. -/

theorem read_write_frequency (v : Nat) (hv : v < 2 ^ 15) (rest : List Nat) :
    read_frequency (write_frequency v ++ rest) = Except.ok (v, rest) := by
  unfold write_frequency
  by_cases hlt : v < 0x80
  · rw [if_pos hlt]
    show read_frequency (v :: rest) = _
    simp only [read_frequency]
    rw [if_pos hlt]
  · rw [if_neg hlt]
    show read_frequency ((0x80 + v / 256) :: v % 256 :: rest) = _
    simp only [read_frequency]
    rw [if_neg (by omega)]
    have hm : (0x80 + v / 256) % 128 = v / 256 := by omega
    rw [hm]
    have hrec : v / 256 * 256 + v % 256 = v := by omega
    rw [hrec]

theorem readLe32_le32 (v : Nat) (hv : v < 2 ^ 32) (rest : List Nat) :
    readLe32 (le32 v ++ rest) = Except.ok (v, rest) := by
  show readLe32 (v % 256 :: v / 2 ^ 8 % 256 :: v / 2 ^ 16 % 256 :: v / 2 ^ 24 % 256 :: rest) = _
  simp only [readLe32]
  have hrec : v % 256 + v / 2 ^ 8 % 256 * 2 ^ 8 + v / 2 ^ 16 % 256 * 2 ^ 16 +
      v / 2 ^ 24 % 256 * 2 ^ 24 = v := by omega
  rw [hrec]

theorem read_write_states (S : Nat → Nat) (hS0 : S 0 < 2 ^ 32) (hS1 : S 1 < 2 ^ 32)
    (hS2 : S 2 < 2 ^ 32) (hS3 : S 3 < 2 ^ 32) (rest : List Nat) :
    read_states (write_states S ++ rest) =
      Except.ok ((fun j => if j = 0 then S 0 else if j = 1 then S 1
        else if j = 2 then S 2 else S 3), rest) := by
  unfold write_states read_states
  rw [List.append_assoc, List.append_assoc, List.append_assoc]
  rw [readLe32_le32 (S 0) hS0]
  dsimp only
  rw [readLe32_le32 (S 1) hS1]
  dsimp only
  rw [readLe32_le32 (S 2) hS2]
  dsimp only
  rw [readLe32_le32 (S 3) hS3]

/-! Run-length helper facts. -/

theorem runLengthP_le (pres : Nat → Bool) : ∀ n s, runLengthP pres n s ≤ n := by
  intro n
  induction n with
  | zero => intro s; exact le_refl 0
  | succ n ih =>
    intro s
    show (if pres (s + 1) then runLengthP pres n (s + 1) + 1 else 0) ≤ n + 1
    split
    · have := ih (s + 1)
      omega
    · omega

theorem runLengthP_mem (pres : Nat → Bool) :
    ∀ n s j, j < runLengthP pres n s → pres (s + 1 + j) = true := by
  intro n
  induction n with
  | zero => intro s j h; exact absurd h (by simp [runLengthP])
  | succ n ih =>
    intro s j h
    by_cases hp : pres (s + 1) = true
    · have hrl : runLengthP pres (n + 1) s = runLengthP pres n (s + 1) + 1 := by
        show (if pres (s + 1) then runLengthP pres n (s + 1) + 1 else 0) = _
        rw [if_pos hp]
      rw [hrl] at h
      cases j with
      | zero => exact hp
      | succ j =>
        have := ih (s + 1) j (by omega)
        have harith : s + 1 + (j + 1) = s + 1 + 1 + j := by omega
        rw [harith]
        exact this
    · have hrl : runLengthP pres (n + 1) s = 0 := by
        show (if pres (s + 1) then runLengthP pres n (s + 1) + 1 else 0) = 0
        rw [if_neg hp]
      rw [hrl] at h
      omega

theorem runLengthP_next (pres : Nat → Bool) :
    ∀ n s, runLengthP pres n s < n → pres (s + 1 + runLengthP pres n s) = false := by
  intro n
  induction n with
  | zero => intro s h; omega
  | succ n ih =>
    intro s h
    by_cases hp : pres (s + 1) = true
    · have hrl : runLengthP pres (n + 1) s = runLengthP pres n (s + 1) + 1 := by
        show (if pres (s + 1) then runLengthP pres n (s + 1) + 1 else 0) = _
        rw [if_pos hp]
      rw [hrl] at h ⊢
      have := ih (s + 1) (by omega)
      have harith : s + 1 + (runLengthP pres n (s + 1) + 1) =
          s + 1 + 1 + runLengthP pres n (s + 1) := by omega
      rw [harith]
      exact this
    · have hrl : runLengthP pres (n + 1) s = 0 := by
        show (if pres (s + 1) then runLengthP pres n (s + 1) + 1 else 0) = 0
        rw [if_neg hp]
      rw [hrl]
      have harith : s + 1 + 0 = s + 1 := by omega
      rw [harith]
      exact Bool.not_eq_true _ ▸ hp

theorem rleWriteLoop_skipTo (pres : Nat → Bool) (wr : Nat → List Nat) :
    ∀ (k n s rle : Nat), (∀ y, s ≤ y → y < s + k → pres y = false) → k ≤ n →
      rleWriteLoop pres wr n s rle = rleWriteLoop pres wr (n - k) (s + k) rle := by
  intro k
  induction k with
  | zero =>
    intro n s rle _ _
    simp
  | succ k ih =>
    intro n s rle habs hkn
    obtain ⟨n1, rfl⟩ : ∃ n1, n = n1 + 1 := ⟨n - 1, by omega⟩
    have hps : pres s = false := habs s (le_refl s) (by omega)
    have hstep : rleWriteLoop pres wr (n1 + 1) s rle = rleWriteLoop pres wr n1 (s + 1) rle := by
      show (if pres s then _ else rleWriteLoop pres wr n1 (s + 1) rle) = _
      rw [hps]
      simp
    rw [hstep, ih n1 (s + 1) rle (fun y h1 h2 => habs y (by omega) (by omega)) (by omega)]
    have h1 : n1 - k = n1 + 1 - (k + 1) := by omega
    have h2 : s + 1 + k = s + (k + 1) := by omega
    rw [h1, h2]

/-! Table update shapes produced by the run-length parser. -/

theorem table_extend {β : Type} (pres : Nat → Bool) (T : Nat → β) (g : Nat → β) (t : Nat)
    (ht : t ≤ 255) (hp : pres t = true) :
    (fun y => if t + 1 ≤ y ∧ y < 256 ∧ pres y = true then g y else setf T t (g t) y) =
    (fun y => if t ≤ y ∧ y < 256 ∧ pres y = true then g y else T y) := by
  funext y
  by_cases hyt : y = t
  · subst hyt
    have h1 : ¬(y + 1 ≤ y ∧ y < 256 ∧ pres y = true) := fun h => by omega
    rw [if_neg h1, if_pos ⟨le_refl y, by omega, hp⟩]
    simp [setf]
  · have hset : setf T t (g t) y = T y := by simp [setf, hyt]
    rw [hset]
    by_cases hc : t + 1 ≤ y ∧ y < 256 ∧ pres y = true
    · rw [if_pos hc, if_pos ⟨by omega, hc.2⟩]
    · have hne : ¬(t ≤ y ∧ y < 256 ∧ pres y = true) := by
        intro hc2
        exact hc ⟨by omega, hc2.2.1, hc2.2.2⟩
      rw [if_neg hc, if_neg hne]

theorem table_skip {β : Type} (pres : Nat → Bool) (T : Nat → β) (g : Nat → β) (s : Nat)
    (hps : pres s = false) :
    (fun y => if s + 1 ≤ y ∧ y < 256 ∧ pres y = true then g y else T y) =
    (fun y => if s ≤ y ∧ y < 256 ∧ pres y = true then g y else T y) := by
  funext y
  by_cases hys : y = s
  · subst hys
    have h2 : ¬(y ≤ y ∧ y < 256 ∧ pres y = true) := by
      intro h
      rw [hps] at h
      exact absurd h.2.2 (by simp)
    rw [if_neg (fun h => by omega), if_neg h2]
  · by_cases hc : s + 1 ≤ y ∧ y < 256 ∧ pres y = true
    · rw [if_pos hc, if_pos ⟨by omega, hc.2⟩]
    · have hne : ¬(s ≤ y ∧ y < 256 ∧ pres y = true) := by
        intro hc2
        exact hc ⟨by omega, hc2.2.1, hc2.2.2⟩
      rw [if_neg hc, if_neg hne]

theorem table_empty {β : Type} (pres : Nat → Bool) (T : Nat → β) (g : Nat → β) :
    (fun y => if 256 ≤ y ∧ y < 256 ∧ pres y = true then g y else T y) = T := by
  funext y
  rw [if_neg (fun h => by omega)]

/-! The run-length serialization round trip: the parser loop of src
read_frequencies_1 run on the writer output restores exactly the present
payloads over the starting table. Proved by strong induction on a joint
measure over the in-run state (first component) and the fresh-symbol
state (second component). -/

theorem rle_master {β : Type} (pres : Nat → Bool) (wr : Nat → List Nat)
    (rd : List Nat → Except Err (β × List Nat)) (g : Nat → β)
    (hrt : ∀ s rest, s < 256 → rd (wr s ++ rest) = Except.ok (g s, rest)) :
    ∀ K : Nat,
      (∀ (t q : Nat) (T : Nat → β) (after : List Nat) (fuel : Nat),
        2 * (255 - t) + 1 ≤ K → t ≤ 255 → pres t = true →
        (∀ j, j < q → pres (t + 1 + j) = true) → t + q ≤ 255 → 255 - t + 3 ≤ fuel →
        rleReadGo rd fuel T t t q
            (wr t ++ (rleWriteLoop pres wr (255 - t) (t + 1) q ++ 0 :: after)) =
          Except.ok ((fun y => if t ≤ y ∧ y < 256 ∧ pres y = true then g y else T y),
            after)) ∧
      (∀ (s e : Nat) (T : Nat → β) (after : List Nat) (fuel : Nat),
        2 * (256 - s) ≤ K → s ≤ 256 → e < s → pres e = true →
        (∀ y, e < y → y < s → pres y = false) → 256 - s + 2 ≤ fuel →
        rleReadNext (rleReadGo rd fuel) T e
            (rleWriteLoop pres wr (256 - s) s 0 ++ 0 :: after) =
          Except.ok ((fun y => if s ≤ y ∧ y < 256 ∧ pres y = true then g y else T y),
            after)) := by
  intro K
  induction K using Nat.strong_induction_on with
  | _ K IH =>
    constructor
    · intro t q T after fuel hK ht hp hq htq hfuel
      obtain ⟨fuel1, rfl⟩ : ∃ f1, fuel = f1 + 1 := ⟨fuel - 1, by omega⟩
      simp only [rleReadGo]
      rw [hrt t (rleWriteLoop pres wr (255 - t) (t + 1) q ++ 0 :: after) (by omega)]
      dsimp only
      cases q with
      | zero =>
        rw [if_neg (by omega)]
        rw [show (255 : Nat) - t = 256 - (t + 1) from by omega]
        rw [(IH (2 * (255 - t)) (by omega)).2 (t + 1) t (setf T t (g t)) after fuel1
          (by omega) (by omega) (by omega) hp
          (fun y h1 h2 => absurd h1 (by omega)) (by omega)]
        rw [table_extend pres T g t ht hp]
      | succ q1 =>
        rw [if_pos (Nat.succ_pos q1)]
        have hmod : (t + 1) % 256 = t + 1 := Nat.mod_eq_of_lt (by omega)
        rw [hmod]
        rw [if_neg (show ¬(t + 1 = 0) by omega)]
        simp only [Nat.add_sub_cancel]
        have hp1 : pres (t + 1) = true := by
          have := hq 0 (by omega)
          rwa [Nat.add_zero] at this
        have hq1 : ∀ j, j < q1 → pres (t + 1 + 1 + j) = true := by
          intro j hj
          have := hq (j + 1) (by omega)
          rwa [show t + 1 + (j + 1) = t + 1 + 1 + j from by omega] at this
        rw [show (255 : Nat) - t = 255 - (t + 1) + 1 from by omega]
        simp only [rleWriteLoop]
        rw [if_pos hp1, if_pos (Nat.succ_pos q1)]
        simp only [Nat.add_sub_cancel]
        rw [List.append_assoc]
        rw [(IH (2 * (255 - t)) (by omega)).1 (t + 1) q1 (setf T t (g t)) after fuel1
          (by omega) (by omega) hp1 hq1 (by omega) (by omega)]
        rw [table_extend pres T g t ht hp]
    · intro s e T after fuel hK hs256 hes hpe hbet hfuel
      by_cases hseq : s = 256
      · subst hseq
        rw [show (256 : Nat) - 256 = 0 from rfl]
        simp only [rleWriteLoop, List.nil_append]
        simp only [rleReadNext]
        rw [if_neg (fun h => by omega)]
        rw [if_pos trivial]
        rw [table_empty pres T g]
      · have hs255 : s ≤ 255 := by omega
        rw [show (256 : Nat) - s = 255 - s + 1 from by omega]
        simp only [rleWriteLoop]
        by_cases hps : pres s = true
        · rw [if_pos hps]
          rw [if_neg (show ¬((0 : Nat) < 0) by omega)]
          by_cases hse : s = e + 1
          · have hsm : pres (s - 1) = true := by
              rw [show s - 1 = e from by omega]
              exact hpe
            rw [if_pos ⟨by omega, hsm⟩]
            simp only [List.append_assoc, List.cons_append, List.nil_append]
            simp only [rleReadNext]
            rw [if_pos ⟨by omega, hse⟩]
            rw [(IH (2 * (256 - s) - 1) (by omega)).1 s (runLengthP pres (255 - s) s)
              T after fuel (by omega) hs255 hps (runLengthP_mem pres (255 - s) s)
              (by have := runLengthP_le pres (255 - s) s; omega) (by omega)]
          · have hsm : pres (s - 1) = false := hbet (s - 1) (by omega) (by omega)
            have hcond : ¬(0 < s ∧ pres (s - 1) = true) := by
              intro h
              rw [hsm] at h
              exact absurd h.2 (by simp)
            rw [if_neg hcond]
            simp only [List.append_assoc, List.cons_append, List.nil_append]
            simp only [rleReadNext]
            rw [if_neg (fun h => hse h.2)]
            rw [if_neg (show ¬(s = 0) by omega)]
            rw [(IH (2 * (256 - s) - 1) (by omega)).1 s 0
              T after fuel (by omega) hs255 hps
              (fun j hj => absurd hj (by omega)) (by omega) (by omega)]
        · rw [if_neg hps]
          have hpsf : pres s = false := Bool.not_eq_true _ ▸ hps
          have hbet2 : ∀ y, e < y → y < s + 1 → pres y = false := by
            intro y h1 h2
            by_cases hy : y = s
            · rw [hy]
              exact hpsf
            · exact hbet y h1 (by omega)
          rw [show (255 : Nat) - s = 256 - (s + 1) from by omega]
          rw [(IH (2 * (256 - s) - 2) (by omega)).2 (s + 1) e T after fuel
            (by omega) (by omega) (by omega) hpe hbet2 (by omega)]
          rw [table_skip pres T g s hpsf]

/-! Whole-table round trips through the run-length serialization. -/

theorem rleRead_rleWrite_present {β : Type} (pres : Nat → Bool) (wr : Nat → List Nat)
    (rd : List Nat → Except Err (β × List Nat)) (g : Nat → β) (d0 : Nat → β)
    (hrt : ∀ s rest, s < 256 → rd (wr s ++ rest) = Except.ok (g s, rest))
    (s0w : Nat) (hs0w : s0w < 256) (hps0w : pres s0w = true) (after : List Nat) :
    rleRead rd d0 (rleWrite pres wr ++ after) =
      Except.ok ((fun y => if y < 256 ∧ pres y = true then g y else d0 y), after) := by
  have hex : ∃ s, pres s = true := ⟨s0w, hps0w⟩
  have hs0 : pres (Nat.find hex) = true := Nat.find_spec hex
  have hmin : ∀ y, y < Nat.find hex → pres y = false := by
    intro y hy
    have := Nat.find_min hex hy
    exact Bool.not_eq_true _ ▸ this
  have hle : Nat.find hex ≤ s0w := Nat.find_min' hex hps0w
  have hlt : Nat.find hex < 256 := by omega
  have hallf : ((List.range 256).all fun s => !pres s) = false := by
    rw [List.all_eq_false]
    exact ⟨s0w, List.mem_range.mpr hs0w, by simp [hps0w]⟩
  unfold rleWrite
  rw [if_neg (by simp [hallf])]
  have hskip := rleWriteLoop_skipTo pres wr (Nat.find hex) 256 0 0
    (fun y h1 h2 => hmin y (by omega)) (by omega)
  rw [Nat.zero_add] at hskip
  rw [hskip]
  rw [show (256 : Nat) - Nat.find hex = 255 - Nat.find hex + 1 from by omega]
  simp only [rleWriteLoop]
  rw [if_pos hs0]
  rw [if_neg (show ¬((0 : Nat) < 0) by omega)]
  have hcond : ¬(0 < Nat.find hex ∧ pres (Nat.find hex - 1) = true) := by
    intro h
    have hm := hmin (Nat.find hex - 1) (by omega)
    rw [hm] at h
    exact absurd h.2 (by simp)
  rw [if_neg hcond]
  simp only [List.append_assoc, List.cons_append, List.nil_append]
  simp only [rleRead]
  rw [(rle_master pres wr rd g hrt (2 * (255 - Nat.find hex) + 1)).1 (Nat.find hex) 0 d0
    after _ (le_refl _) (by omega) hs0 (fun j hj => absurd hj (by omega)) (by omega)
    (by simp only [List.length_cons]; omega)]
  have htab : (fun y => if Nat.find hex ≤ y ∧ y < 256 ∧ pres y = true then g y else d0 y) =
      (fun y => if y < 256 ∧ pres y = true then g y else d0 y) := by
    funext y
    by_cases hy : y < Nat.find hex
    · have hpy := hmin y hy
      rw [if_neg (fun h => by omega), if_neg (fun h => by rw [hpy] at h; exact absurd h.2 (by simp))]
    · by_cases hc : y < 256 ∧ pres y = true
      · rw [if_pos ⟨by omega, hc⟩, if_pos hc]
      · rw [if_neg (fun h => hc ⟨h.2.1, h.2.2⟩), if_neg hc]
  rw [htab]

theorem rleRead_rleWrite_absent {β : Type} (pres : Nat → Bool) (wr : Nat → List Nat)
    (rd : List Nat → Except Err (β × List Nat)) (g : Nat → β) (d0 : Nat → β)
    (hrt : ∀ s rest, s < 256 → rd (wr s ++ rest) = Except.ok (g s, rest))
    (hall : ∀ s, s < 256 → pres s = false) (after : List Nat) :
    rleRead rd d0 (rleWrite pres wr ++ after) = Except.ok (setf d0 0 (g 0), after) := by
  have hallb : ((List.range 256).all fun s => !pres s) = true := by
    rw [List.all_eq_true]
    intro x hx
    rw [hall x (List.mem_range.mp hx)]
    rfl
  unfold rleWrite
  rw [if_pos hallb]
  simp only [List.append_assoc, List.cons_append, List.nil_append]
  simp only [rleRead]
  set fl := (0 :: (wr 0 ++ 0 :: after)).length + 258 with hfl
  obtain ⟨f1, hfl2⟩ : ∃ f1, fl = f1 + 1 := ⟨fl - 1, by omega⟩
  rw [hfl2]
  simp only [rleReadGo]
  rw [hrt 0 (0 :: after) (by omega)]
  dsimp only
  rw [if_neg (show ¬((0 : Nat) < 0) by omega)]
  simp only [rleReadNext]
  rw [if_neg (fun h => by omega)]
  rw [if_pos trivial]

theorem freqTotal_zero_eq (g : Nat → Nat) (h : freqTotal g = 0)
    (hdom : ∀ s, 256 ≤ s → g s = 0) : g = fun _ => 0 := by
  funext s
  by_cases hs : s < 256
  · have := le_freqTotal g s hs
    omega
  · exact hdom s (by omega)

theorem read_write_frequencies (f : Nat → Nat) (hle : ∀ s, f s ≤ 4095)
    (hdom : ∀ s, 256 ≤ s → f s = 0) (after : List Nat) :
    read_frequencies_0 (write_frequencies f ++ after) = Except.ok (f, after) := by
  have hrt : ∀ s rest, s < 256 →
      read_frequency (write_frequency (f s) ++ rest) = Except.ok (f s, rest) :=
    fun s rest _ => read_write_frequency (f s) (by have := hle s; omega) rest
  unfold write_frequencies read_frequencies_0
  by_cases hex : ∃ s, s < 256 ∧ 0 < f s
  · obtain ⟨s0, hs0, hp0⟩ := hex
    rw [rleRead_rleWrite_present (fun s => decide (0 < f s)) (fun s => write_frequency (f s))
      read_frequency f (fun _ => 0) hrt s0 hs0 (by simp [hp0]) after]
    refine congrArg Except.ok (Prod.ext ?_ rfl)
    funext y
    simp only [decide_eq_true_eq]
    by_cases hy : y < 256 ∧ 0 < f y
    · rw [if_pos hy]
    · rw [if_neg hy]
      by_cases hy2 : y < 256
      · have hz : f y = 0 := by
          rcases Nat.eq_zero_or_pos (f y) with h | h
          · exact h
          · exact absurd ⟨hy2, h⟩ hy
        exact hz.symm
      · exact (hdom y (by omega)).symm
  · push_neg at hex
    have hallp : ∀ s, s < 256 → f s = 0 := by
      intro s hs
      have := hex s hs
      omega
    rw [rleRead_rleWrite_absent (fun s => decide (0 < f s)) (fun s => write_frequency (f s))
      read_frequency f (fun _ => 0) hrt (fun s hs => by simp [hallp s hs]) after]
    refine congrArg Except.ok (Prod.ext ?_ rfl)
    funext y
    simp only [setf]
    by_cases hy : y = 0
    · rw [if_pos hy, hy]
    · rw [if_neg hy]
      by_cases hy2 : y < 256
      · exact (hallp y hy2).symm
      · exact (hdom y (by omega)).symm

theorem read_write_frequencies_1 (F : Nat → Nat → Nat)
    (hle : ∀ c s, F c s ≤ 4095) (hdom : ∀ c s, 256 ≤ s → F c s = 0)
    (hzero : ∀ c, c < 256 → freqTotal (F c) = 0 → F c = fun _ => 0)
    (hcdom : ∀ c, 256 ≤ c → F c = fun _ => 0)
    (after : List Nat) :
    read_frequencies_1 (write_frequencies_1 F ++ after) = Except.ok (F, after) := by
  have hrt : ∀ c rest, c < 256 →
      read_frequencies_0 (write_frequencies (F c) ++ rest) = Except.ok (F c, rest) :=
    fun c rest _ => read_write_frequencies (F c) (hle c) (hdom c) rest
  unfold write_frequencies_1 read_frequencies_1
  by_cases hex : ∃ c, c < 256 ∧ 0 < freqTotal (F c)
  · obtain ⟨c0, hc0, hp0⟩ := hex
    rw [rleRead_rleWrite_present (fun c => decide (0 < freqTotal (F c)))
      (fun c => write_frequencies (F c)) read_frequencies_0 F (fun _ _ => 0) hrt
      c0 hc0 (by simp [hp0]) after]
    refine congrArg Except.ok (Prod.ext ?_ rfl)
    funext c
    simp only [decide_eq_true_eq]
    by_cases hc : c < 256 ∧ 0 < freqTotal (F c)
    · rw [if_pos hc]
    · rw [if_neg hc]
      by_cases hc2 : c < 256
      · have hz : freqTotal (F c) = 0 := by
          rcases Nat.eq_zero_or_pos (freqTotal (F c)) with h | h
          · exact h
          · exact absurd ⟨hc2, h⟩ hc
        exact (hzero c hc2 hz).symm
      · exact (hcdom c (by omega)).symm
  · push_neg at hex
    have hallp : ∀ c, c < 256 → freqTotal (F c) = 0 := by
      intro c hc
      have := hex c hc
      omega
    rw [rleRead_rleWrite_absent (fun c => decide (0 < freqTotal (F c)))
      (fun c => write_frequencies (F c)) read_frequencies_0 F (fun _ _ => 0) hrt
      (fun c hc => by simp [hallp c hc]) after]
    refine congrArg Except.ok (Prod.ext ?_ rfl)
    funext c
    simp only [setf]
    by_cases hc : c = 0
    · rw [if_pos hc, hc]
    · rw [if_neg hc]
      by_cases hc2 : c < 256
      · exact (hzero c hc2 (hallp c hc2)).symm
      · exact (hcdom c (by omega)).symm

/-! Enumeration and table-update helper facts. -/

theorem enumFrom_getD (l : List Nat) :
    ∀ (n i : Nat), i < l.length →
      (List.enumFrom n l).getD i (0, 0) = (n + i, l.getD i 0) := by
  induction l with
  | nil => intro n i hi; simp at hi
  | cons a t ih =>
    intro n i hi
    cases i with
    | zero => simp [List.enumFrom]
    | succ i =>
      have hit : i < t.length := by
        simp only [List.length_cons] at hi
        omega
      show (List.enumFrom (n + 1) t).getD i (0, 0) = (n + (i + 1), t.getD i 0)
      rw [ih (n + 1) i hit]
      have h1 : n + 1 + i = n + (i + 1) := by omega
      rw [h1]

theorem enumFrom_length_own (l : List Nat) : ∀ n, (List.enumFrom n l).length = l.length := by
  induction l with
  | nil => intro n; rfl
  | cons a t ih =>
    intro n
    show (List.enumFrom (n + 1) t).length + 1 = t.length + 1
    rw [ih (n + 1)]

theorem enumFrom_map_snd (l : List Nat) : ∀ n, (List.enumFrom n l).map Prod.snd = l := by
  induction l with
  | nil => intro n; rfl
  | cons a t ih =>
    intro n
    show a :: (List.enumFrom (n + 1) t).map Prod.snd = a :: t
    rw [ih (n + 1)]

theorem getD_mem_own (l : List Nat) : ∀ p, p < l.length → l.getD p 0 ∈ l := by
  induction l with
  | nil => intro p h; simp at h
  | cons a t ih =>
    intro p h
    cases p with
    | zero => exact List.mem_cons_self a t
    | succ p =>
      have hpt : p < t.length := by
        simp only [List.length_cons] at h
        omega
      exact List.mem_cons_of_mem a (ih p hpt)

theorem drop_cons_getD (l : List Nat) :
    ∀ k, k < l.length → l.drop k = l.getD k 0 :: l.drop (k + 1) := by
  induction l with
  | nil => intro k hk; simp at hk
  | cons a t ih =>
    intro k hk
    cases k with
    | zero => rfl
    | succ k =>
      have hkt : k < t.length := by
        simp only [List.length_cons] at hk
        omega
      exact ih k hkt

theorem count_pos_own (l : List Nat) (a : Nat) : a ∈ l → 0 < l.count a := by
  intro h
  induction l with
  | nil => exact absurd h (List.not_mem_nil a)
  | cons x t ih =>
    rcases List.mem_cons.mp h with rfl | h2
    · simp [List.count_cons]
    · have := ih h2
      rw [List.count_cons]
      split <;> omega

theorem setf_same {β : Type} (S : Nat → β) (j : Nat) (v : β) : setf S j v j = v := by
  simp [setf]

theorem setf_other {β : Type} (S : Nat → β) (j y : Nat) (v : β) (h : y ≠ j) :
    setf S j v y = S y := by
  simp [setf, h]

theorem setf_setf {β : Type} (S : Nat → β) (j : Nat) (v w : β) :
    setf (setf S j v) j w = setf S j w := by
  funext y
  unfold setf
  by_cases hy : y = j
  · rw [if_pos hy, if_pos hy]
  · rw [if_neg hy, if_neg hy, if_neg hy]

theorem setf_self {β : Type} (S : Nat → β) (j : Nat) : setf S j (S j) = S := by
  funext y
  unfold setf
  by_cases hy : y = j
  · rw [if_pos hy, hy]
  · rw [if_neg hy]

theorem initStates_bounds : ∀ j, LOWER_BOUND ≤ initStates j ∧ initStates j < 2 ^ 31 := by
  intro j
  exact ⟨le_refl _, by show LOWER_BOUND < 2 ^ 31; decide⟩

/-! Order-0 encoder loop structure. -/

theorem encode0Steps_append (f cf : Nat → Nat) :
    ∀ (A B : List (Nat × Nat)) (states : Nat → Nat),
      encode0Steps f cf (A ++ B) states =
        ((encode0Steps f cf B (encode0Steps f cf A states).1).1,
         (encode0Steps f cf A states).2 ++
           (encode0Steps f cf B (encode0Steps f cf A states).1).2) := by
  intro A
  induction A with
  | nil => intro B states; rfl
  | cons a A ih =>
    obtain ⟨i, s⟩ := a
    intro B states
    show ((encode0Steps f cf (A ++ B) _).1, _ ++ (encode0Steps f cf (A ++ B) _).2) = _
    rw [ih]
    simp only [encode0Steps, List.append_assoc]

theorem encode0Steps_singleton (f cf : Nat → Nat) (i s : Nat) (S : Nat → Nat) :
    encode0Steps f cf [(i, s)] S =
      (setf S (i % 4) (update (normalize (S (i % 4)) (f s)).2 (f s) (cf s)),
       (normalize (S (i % 4)) (f s)).1) := by
  simp [encode0Steps]

theorem encode0Steps_bounds (f cf : Nat → Nat) :
    ∀ (sch : List (Nat × Nat)) (states : Nat → Nat),
      (∀ e ∈ sch, 0 < f e.2 ∧ f e.2 ≤ 4095 ∧ cf e.2 + f e.2 ≤ 4095) →
      (∀ j, LOWER_BOUND ≤ states j ∧ states j < 2 ^ 31) →
      ∀ j, LOWER_BOUND ≤ (encode0Steps f cf sch states).1 j ∧
        (encode0Steps f cf sch states).1 j < 2 ^ 31 := by
  intro sch
  induction sch with
  | nil => intro states _ hst j; exact hst j
  | cons a sch ih =>
    obtain ⟨i, s⟩ := a
    intro states he hst j
    have hh := he (i, s) (List.mem_cons_self _ _)
    have hfs : 0 < f s := hh.1
    have hfle : f s ≤ 4095 := hh.2.1
    have hcfs : cf s + f s ≤ 4095 := hh.2.2
    have hx0 := hst (i % 4)
    have hx1U : (normalize (states (i % 4)) (f s)).2 < 2 ^ 19 * f s := by
      have := normalize_upper (f s) hfs (states (i % 4))
      rwa [show (LOWER_BOUND >>> 4) = 2 ^ 19 from rfl] at this
    have hx1L : 2 ^ 11 * f s ≤ (normalize (states (i % 4)) (f s)).2 :=
      normalize_lower (f s) hfs hfle (states (i % 4)) (Or.inl hx0.1)
    have hupL : LOWER_BOUND ≤ update (normalize (states (i % 4)) (f s)).2 (f s) (cf s) :=
      update_lower _ _ _ hfs hx1L hx1U (by omega)
    have hupU : update (normalize (states (i % 4)) (f s)).2 (f s) (cf s) < 2 ^ 31 :=
      update_upper _ _ _ hfs hx1U (by omega)
    show LOWER_BOUND ≤ (encode0Steps f cf sch _).1 j ∧ (encode0Steps f cf sch _).1 j < 2 ^ 31
    apply ih _ (fun e heb => he e (List.mem_cons_of_mem _ heb))
    intro j2
    by_cases hj2 : j2 = i % 4
    · rw [hj2, setf_same]
      exact ⟨hupL, hupU⟩
    · rw [setf_other _ _ _ _ hj2]
      exact hst j2

/-! Order-0 decode inverts the encoder stream, symbol by symbol. -/

theorem decode0_inversion (f : Nat → Nat) :
    ∀ (ps : List (Nat × Nat)) (k : Nat) (S : Nat → Nat) (rest : List Nat),
      (∀ i, i < ps.length → (ps.getD i (0, 0)).1 = k + i) →
      (∀ e ∈ ps, e.2 < 256 ∧ 0 < f e.2 ∧ cfreq f e.2 + f e.2 ≤ 4095) →
      (∀ j, j < 4 → S j = (encode0Steps f (cfreq f) ps.reverse initStates).1 j) →
      ∃ SF, decode0Steps f ps.length k S
          ((encode0Steps f (cfreq f) ps.reverse initStates).2.reverse ++ rest) =
        Except.ok (ps.map Prod.snd, SF, rest) := by
  intro ps
  induction ps with
  | nil =>
    intro k S rest _ _ _
    exact ⟨S, rfl⟩
  | cons hd ps ih =>
    obtain ⟨i0, b⟩ := hd
    intro k S rest hidx hsym2 hS
    have hi0 : i0 = k := by
      have h := hidx 0 (by simp)
      simpa using h
    subst hi0
    have hh := hsym2 (i0, b) (List.mem_cons_self _ _)
    have hb256 : b < 256 := hh.1
    have hfb : 0 < f b := hh.2.1
    have hcfb : cfreq f b + f b ≤ 4095 := hh.2.2
    have hrev : ((i0, b) :: ps).reverse = ps.reverse ++ [(i0, b)] := List.reverse_cons _ _
    have hsch : ∀ e ∈ ps.reverse, 0 < f e.2 ∧ f e.2 ≤ 4095 ∧
        cfreq f e.2 + f e.2 ≤ 4095 := by
      intro e he
      have hmem : e ∈ ps := List.mem_reverse.mp he
      have h3 := hsym2 e (List.mem_cons_of_mem _ hmem)
      exact ⟨h3.2.1, by have := h3.2.2; omega, h3.2.2⟩
    have hx0b := encode0Steps_bounds f (cfreq f) ps.reverse initStates hsch
      initStates_bounds (i0 % 4)
    have hstep := rans_step_inversion f b
      ((encode0Steps f (cfreq f) ps.reverse initStates).1 (i0 % 4))
      ((encode0Steps f (cfreq f) ps.reverse initStates).2.reverse ++ rest)
      hb256 hfb hcfb hx0b.1 hx0b.2
    have hEfull : encode0Steps f (cfreq f) (((i0, b) :: ps).reverse) initStates =
        (setf (encode0Steps f (cfreq f) ps.reverse initStates).1 (i0 % 4)
          (update (normalize ((encode0Steps f (cfreq f) ps.reverse initStates).1 (i0 % 4))
            (f b)).2 (f b) (cfreq f b)),
         (encode0Steps f (cfreq f) ps.reverse initStates).2 ++
           (normalize ((encode0Steps f (cfreq f) ps.reverse initStates).1 (i0 % 4))
             (f b)).1) := by
      rw [hrev, encode0Steps_append, encode0Steps_singleton]
    have hSk : S (i0 % 4) =
        update (normalize ((encode0Steps f (cfreq f) ps.reverse initStates).1 (i0 % 4))
          (f b)).2 (f b) (cfreq f b) := by
      rw [hS (i0 % 4) (Nat.mod_lt i0 (by norm_num)), hEfull]
      exact setf_same _ _ _
    have hS2 : ∀ j, j < 4 → setf S (i0 % 4)
        ((encode0Steps f (cfreq f) ps.reverse initStates).1 (i0 % 4)) j =
        (encode0Steps f (cfreq f) ps.reverse initStates).1 j := by
      intro j hj
      by_cases hjm : j = i0 % 4
      · rw [hjm, setf_same]
      · rw [setf_other _ _ _ _ hjm, hS j hj, hEfull]
        exact setf_other _ _ _ _ hjm
    have hidx2 : ∀ i, i < ps.length → (ps.getD i (0, 0)).1 = (i0 + 1) + i := by
      intro i hi
      have h := hidx (i + 1) (by simp only [List.length_cons]; omega)
      have h2 : (ps.getD i (0, 0)).1 = i0 + (i + 1) := h
      rw [h2]
      omega
    have hsym2b : ∀ e ∈ ps, e.2 < 256 ∧ 0 < f e.2 ∧ cfreq f e.2 + f e.2 ≤ 4095 :=
      fun e he => hsym2 e (List.mem_cons_of_mem _ he)
    obtain ⟨SF, hrec⟩ := ih (i0 + 1)
      (setf S (i0 % 4) ((encode0Steps f (cfreq f) ps.reverse initStates).1 (i0 % 4)))
      rest hidx2 hsym2b hS2
    refine ⟨SF, ?_⟩
    simp only [List.length_cons, List.map_cons]
    rw [hEfull]
    show decode0Steps f (ps.length + 1) i0 S
        (((encode0Steps f (cfreq f) ps.reverse initStates).2 ++
          (normalize ((encode0Steps f (cfreq f) ps.reverse initStates).1 (i0 % 4))
            (f b)).1).reverse ++ rest) = _
    rw [List.reverse_append, List.append_assoc]
    simp only [decode0Steps]
    rw [hSk, hstep.1, hstep.2.1]
    dsimp only
    rw [hrec]

theorem enum_length_own (src : List Nat) : src.enum.length = src.length :=
  enumFrom_length_own src 0

theorem enum_map_snd_own (src : List Nat) : src.enum.map Prod.snd = src :=
  enumFrom_map_snd src 0

theorem enum_getD_own (src : List Nat) (i : Nat) (h : i < src.length) :
    src.enum.getD i (0, 0) = (i, src.getD i 0) := by
  have h2 := enumFrom_getD src 0 i h
  rw [Nat.zero_add] at h2
  exact h2

theorem rans_decode_0_roundtrip (src : List Nat) (hB : ∀ b ∈ src, b < 256)
    (hne : src ≠ []) :
    rans_decode_0
      (write_frequencies (normalize_frequencies (build_frequencies src)) ++
        (write_states (encode0Steps (normalize_frequencies (build_frequencies src))
          (cfreq (normalize_frequencies (build_frequencies src))) src.enum.reverse
          initStates).1 ++
        (encode0Steps (normalize_frequencies (build_frequencies src))
          (cfreq (normalize_frequencies (build_frequencies src))) src.enum.reverse
          initStates).2.reverse))
      src.length = Except.ok (src, []) := by
  obtain ⟨b0, hb0⟩ := List.exists_mem_of_ne_nil src hne
  have htot : 0 < freqTotal (build_frequencies src) := by
    have h1 : 0 < build_frequencies src b0 := count_pos_own src b0 hb0
    have h2 := le_freqTotal (build_frequencies src) b0 (hB b0 hb0)
    omega
  have hle : ∀ s, normalize_frequencies (build_frequencies src) s ≤ 4095 :=
    fun s => normalize_frequencies_le _ htot s
  have hdom : ∀ s, 256 ≤ s → normalize_frequencies (build_frequencies src) s = 0 :=
    fun s hs => normalize_frequencies_dom _ s hs
  have hsym2 : ∀ e ∈ src.enum, e.2 < 256 ∧
      0 < normalize_frequencies (build_frequencies src) e.2 ∧
      cfreq (normalize_frequencies (build_frequencies src)) e.2 +
        normalize_frequencies (build_frequencies src) e.2 ≤ 4095 := by
    intro e he
    have hmem : e.2 ∈ src := by
      have h2 : e.2 ∈ src.enum.map Prod.snd := List.mem_map_of_mem Prod.snd he
      rwa [enum_map_snd_own src] at h2
    have hb := hB e.2 hmem
    exact ⟨hb, normalize_frequencies_pos _ e.2 hb (count_pos_own src e.2 hmem),
      normalized_cfreq_bound _ htot e.2 hb⟩
  have hsch : ∀ e ∈ src.enum.reverse,
      0 < normalize_frequencies (build_frequencies src) e.2 ∧
      normalize_frequencies (build_frequencies src) e.2 ≤ 4095 ∧
      cfreq (normalize_frequencies (build_frequencies src)) e.2 +
        normalize_frequencies (build_frequencies src) e.2 ≤ 4095 := by
    intro e he
    have h3 := hsym2 e (List.mem_reverse.mp he)
    exact ⟨h3.2.1, hle e.2, h3.2.2⟩
  have hEb := encode0Steps_bounds (normalize_frequencies (build_frequencies src))
    (cfreq (normalize_frequencies (build_frequencies src))) src.enum.reverse initStates
    hsch initStates_bounds
  unfold rans_decode_0
  rw [read_write_frequencies _ hle hdom _]
  dsimp only
  rw [read_write_states _ (by have := (hEb 0).2; omega) (by have := (hEb 1).2; omega)
    (by have := (hEb 2).2; omega) (by have := (hEb 3).2; omega)]
  dsimp only
  have hidx : ∀ i, i < src.enum.length → (src.enum.getD i (0, 0)).1 = 0 + i := by
    intro i hi
    rw [enum_getD_own src i (by rwa [enum_length_own src] at hi)]
    omega
  have hSread : ∀ j, j < 4 →
      (fun j => if j = 0
        then (encode0Steps (normalize_frequencies (build_frequencies src))
          (cfreq (normalize_frequencies (build_frequencies src))) src.enum.reverse
          initStates).1 0
        else if j = 1
        then (encode0Steps (normalize_frequencies (build_frequencies src))
          (cfreq (normalize_frequencies (build_frequencies src))) src.enum.reverse
          initStates).1 1
        else if j = 2
        then (encode0Steps (normalize_frequencies (build_frequencies src))
          (cfreq (normalize_frequencies (build_frequencies src))) src.enum.reverse
          initStates).1 2
        else (encode0Steps (normalize_frequencies (build_frequencies src))
          (cfreq (normalize_frequencies (build_frequencies src))) src.enum.reverse
          initStates).1 3) j =
      (encode0Steps (normalize_frequencies (build_frequencies src))
        (cfreq (normalize_frequencies (build_frequencies src))) src.enum.reverse
        initStates).1 j := by
    intro j hj
    interval_cases j <;> rfl
  have hinv := decode0_inversion (normalize_frequencies (build_frequencies src))
    src.enum 0 _ [] hidx hsym2 hSread
  rw [enum_length_own src, enum_map_snd_own src] at hinv
  obtain ⟨SF, hfin⟩ := hinv
  rw [show (encode0Steps (normalize_frequencies (build_frequencies src))
      (cfreq (normalize_frequencies (build_frequencies src))) src.enum.reverse
      initStates).2.reverse =
    (encode0Steps (normalize_frequencies (build_frequencies src))
      (cfreq (normalize_frequencies (build_frequencies src))) src.enum.reverse
      initStates).2.reverse ++ [] from (List.append_nil _).symm]
  rw [hfin]

theorem readLe32_le32_any (v : Nat) (rest : List Nat) :
    readLe32 (le32 v ++ rest) =
      Except.ok (v % 256 + v / 2 ^ 8 % 256 * 2 ^ 8 + v / 2 ^ 16 % 256 * 2 ^ 16 +
        v / 2 ^ 24 % 256 * 2 ^ 24, rest) := rfl

set_option maxRecDepth 10000 in
theorem rans_roundtrip_0_nil : rans_decode (rans_encode Order.Zero []) 0 = Except.ok [] := by
  rfl

theorem rans_roundtrip_0 (src : List Nat) (hB : ∀ b ∈ src, b < 256) :
    rans_decode (rans_encode Order.Zero src) src.length = Except.ok src := by
  by_cases hne : src = []
  · subst hne
    exact rans_roundtrip_0_nil
  · show rans_decode (rans_encode_0 src) src.length = Except.ok src
    simp only [rans_encode_0]
    simp only [List.cons_append, List.nil_append, List.append_assoc]
    simp only [rans_decode]
    rw [readLe32_le32_any]
    dsimp only
    rw [readLe32_le32_any]
    dsimp only
    rw [if_pos trivial]
    rw [rans_decode_0_roundtrip src hB hne]

/-! Order-1 schedule decompositions. -/

theorem range1_succ_own (s m : Nat) : List.range' s (m + 1) = s :: List.range' (s + 1) m := rfl

theorem flatMapL_cons {α β : Type} (f : α → List β) (a : α) (l : List α) :
    flatMapL f (a :: l) = f a ++ flatMapL f l := rfl

theorem decode1ScheduleFrom_zero (n : Nat) : decode1ScheduleFrom n 0 = decode1Schedule n := by
  unfold decode1ScheduleFrom decode1Schedule
  rw [Nat.sub_zero, ← List.range_eq_range']

theorem decode1ScheduleFrom_step (n i : Nat) (hi : i < n / 4) :
    decode1ScheduleFrom n i =
      [(0, i), (1, n / 4 + i), (2, 2 * (n / 4) + i), (3, 3 * (n / 4) + i)] ++
        decode1ScheduleFrom n (i + 1) := by
  unfold decode1ScheduleFrom
  rw [show n / 4 - i = (n / 4 - (i + 1)) + 1 from by omega, range1_succ_own, flatMapL_cons,
    List.append_assoc]

theorem decode1ScheduleFrom_end (n : Nat) :
    decode1ScheduleFrom n (n / 4) = decode1RemFrom n (4 * (n / 4)) := by
  unfold decode1ScheduleFrom decode1RemFrom
  rw [Nat.sub_self]
  rfl

theorem decode1RemFrom_step (n p : Nat) (hp : p < n) :
    decode1RemFrom n p = (3, p) :: decode1RemFrom n (p + 1) := by
  unfold decode1RemFrom
  rw [show n - p = (n - (p + 1)) + 1 from by omega, List.range_succ_eq_map, List.map_cons,
    List.map_map]
  congr 1
  apply List.map_congr_left
  intro m _
  show ((3 : Nat), p + (m + 1)) = ((3 : Nat), p + 1 + m)
  rw [show p + (m + 1) = p + 1 + m from by omega]

theorem decode1RemFrom_end (n : Nat) : decode1RemFrom n n = [] := by
  unfold decode1RemFrom
  rw [Nat.sub_self]
  rfl

theorem encSched_append (src : List Nat) (A B : List (Nat × Nat)) :
    encSched src (A ++ B) = encSched src B ++ encSched src A := by
  unfold encSched
  rw [List.reverse_append, List.map_append]

theorem encSched_cons (src : List Nat) (jp : Nat × Nat) (l : List (Nat × Nat)) :
    encSched src (jp :: l) = encSched src l ++ [(jp.1, ctxOf src jp.2, src.getD jp.2 0)] := by
  unfold encSched
  rw [List.reverse_cons, List.map_append]
  rfl

theorem encSched_four (src : List Nat) (a b c d : Nat × Nat) :
    encSched src [a, b, c, d] =
      [(d.1, ctxOf src d.2, src.getD d.2 0), (c.1, ctxOf src c.2, src.getD c.2 0),
       (b.1, ctxOf src b.2, src.getD b.2 0), (a.1, ctxOf src a.2, src.getD a.2 0)] := rfl

theorem encode1Schedule_eq (src : List Nat) :
    encode1Schedule src = encSched src (decode1Schedule src.length) := rfl

theorem decode1ScheduleFrom_pos (n i : Nat) :
    ∀ jp ∈ decode1ScheduleFrom n i, jp.2 < n := by
  intro jp hjp
  unfold decode1ScheduleFrom at hjp
  have h4q : 4 * (n / 4) ≤ n := by
    have := Nat.div_mul_le_self n 4
    omega
  rcases List.mem_append.mp hjp with h | h
  · rw [mem_flatMapL] at h
    obtain ⟨i2, hi2, hmem⟩ := h
    have hi2b : i ≤ i2 ∧ i2 < i + (n / 4 - i) := List.mem_range'_1.mp hi2
    have hi2q : i2 < n / 4 := by omega
    simp only [List.mem_cons, List.not_mem_nil, or_false] at hmem
    rcases hmem with rfl | rfl | rfl | rfl <;> simp only <;> omega
  · rw [List.mem_map] at h
    obtain ⟨m, hm, rfl⟩ := h
    rw [List.mem_range] at hm
    simp only
    omega

theorem decode1RemFrom_pos (n p : Nat) : ∀ jp ∈ decode1RemFrom n p, jp.2 < n := by
  intro jp hjp
  unfold decode1RemFrom at hjp
  rw [List.mem_map] at hjp
  obtain ⟨m, hm, rfl⟩ := hjp
  rw [List.mem_range] at hm
  simp only
  omega

/-! Context values along the write schedule. -/

theorem ctxOf_chunk_start (src : List Nat) (j : Nat) (hj : j ≤ 3) :
    ctxOf src (j * (src.length / 4)) = 0 := by
  interval_cases j <;> simp [ctxOf]

theorem ctxOf_main (src : List Nat) (j i : Nat) (hj : j ≤ 3) (hi1 : 1 ≤ i)
    (hiq : i < src.length / 4) :
    ctxOf src (j * (src.length / 4) + i) = src.getD (j * (src.length / 4) + i - 1) 0 := by
  unfold ctxOf
  rw [if_neg (by interval_cases j <;> omega)]

theorem ctxOf_rem (src : List Nat) (p : Nat) (hp4 : 4 * (src.length / 4) ≤ p) :
    ctxOf src p = (if p = 0 then 0 else src.getD (p - 1) 0) := by
  by_cases hp0 : p = 0
  · subst hp0
    rw [if_pos rfl]
    unfold ctxOf
    rw [if_pos (Or.inl rfl)]
  · rw [if_neg hp0]
    unfold ctxOf
    rw [if_neg (by omega)]

/-! Adjacent-pair statistics support. -/

theorem tail_getD (l : List Nat) (i : Nat) : l.tail.getD i 0 = l.getD (i + 1) 0 := by
  cases l with
  | nil => rfl
  | cons a t => rfl

theorem zip_getD (l1 : List Nat) :
    ∀ (l2 : List Nat) (i : Nat), i < l1.length → i < l2.length →
      (l1.zip l2).getD i (0, 0) = (l1.getD i 0, l2.getD i 0) := by
  induction l1 with
  | nil => intro l2 i h1 _; simp at h1
  | cons a t ih =>
    intro l2 i h1 h2
    cases l2 with
    | nil => simp at h2
    | cons b u =>
      cases i with
      | zero => rfl
      | succ i =>
        have h1t : i < t.length := by simp only [List.length_cons] at h1; omega
        have h2u : i < u.length := by simp only [List.length_cons] at h2; omega
        show (t.zip u).getD i (0, 0) = (t.getD i 0, u.getD i 0)
        exact ih u i h1t h2u

theorem getD_mem_pair (l : List (Nat × Nat)) : ∀ p, p < l.length → l.getD p (0, 0) ∈ l := by
  induction l with
  | nil => intro p h; simp at h
  | cons a t ih =>
    intro p h
    cases p with
    | zero => exact List.mem_cons_self a t
    | succ p =>
      have hpt : p < t.length := by simp only [List.length_cons] at h; omega
      exact List.mem_cons_of_mem a (ih p hpt)

theorem count_pos_pair (l : List (Nat × Nat)) (a : Nat × Nat) : a ∈ l → 0 < l.count a := by
  intro h
  induction l with
  | nil => exact absurd h (List.not_mem_nil a)
  | cons x t ih =>
    rcases List.mem_cons.mp h with rfl | h2
    · simp [List.count_cons]
    · have := ih h2
      rw [List.count_cons]
      split <;> omega

theorem pair_mem_zip_tail (src : List Nat) (p : Nat) (hp1 : 1 ≤ p) (hpn : p < src.length) :
    (src.getD (p - 1) 0, src.getD p 0) ∈ src.zip src.tail := by
  have hplt : p - 1 < (src.zip src.tail).length := by
    rw [List.length_zip, List.length_tail]
    omega
  have hz := zip_getD src src.tail (p - 1) (by omega) (by rw [List.length_tail]; omega)
  rw [tail_getD, show p - 1 + 1 = p from by omega] at hz
  rw [← hz]
  exact getD_mem_pair _ (p - 1) hplt

theorem order1_pos_facts (src : List Nat) (hB : ∀ b ∈ src, b < 256) :
    ∀ p, p < src.length →
      src.getD p 0 < 256 ∧
      0 < normalize_contexts (build_contexts src) (ctxOf src p) (src.getD p 0) ∧
      cfreq (normalize_contexts (build_contexts src) (ctxOf src p)) (src.getD p 0) +
        normalize_contexts (build_contexts src) (ctxOf src p) (src.getD p 0) ≤ 4095 := by
  intro p hp
  have hbmem : src.getD p 0 ∈ src := getD_mem_own src p hp
  have hb : src.getD p 0 < 256 := hB _ hbmem
  have hcount : 0 < build_contexts src (ctxOf src p) (src.getD p 0) := by
    unfold ctxOf
    by_cases hset : p = 0 ∨ p = src.length / 4 ∨ p = 2 * (src.length / 4) ∨
        p = 3 * (src.length / 4)
    · rw [if_pos hset]
      unfold build_contexts
      have hnsrc : src ≠ [] := by
        intro h
        rw [h] at hp
        simp at hp
      rw [if_pos ⟨rfl, hnsrc⟩]
      have hj0 : ∃ j0, j0 < 4 ∧ p = j0 * (src.length / 4) := by
        rcases hset with h | h | h | h
        · exact ⟨0, by omega, by omega⟩
        · exact ⟨1, by omega, by omega⟩
        · exact ⟨2, by omega, by omega⟩
        · exact ⟨3, by omega, by omega⟩
      obtain ⟨j0, hj04, hj0p⟩ := hj0
      have hmemf : j0 ∈ (List.range 4).filter
          (fun j => decide (src.getD (j * (src.length / 4)) 0 = src.getD p 0)) := by
        rw [List.mem_filter]
        refine ⟨List.mem_range.mpr hj04, ?_⟩
        rw [← hj0p]
        simp
      have hlenf : 0 < ((List.range 4).filter
          (fun j => decide (src.getD (j * (src.length / 4)) 0 = src.getD p 0))).length :=
        List.length_pos.mpr (List.ne_nil_of_mem hmemf)
      omega
    · rw [if_neg hset]
      have hp1 : 1 ≤ p := by
        rcases Nat.eq_zero_or_pos p with h | h
        · exact absurd (Or.inl h) hset
        · exact h
      have hmem := pair_mem_zip_tail src p hp1 hp
      have hcnt := count_pos_pair _ _ hmem
      unfold build_contexts
      exact Nat.lt_of_lt_of_le hcnt (Nat.le_add_right _ _)
  have htotc : 0 < freqTotal (build_contexts src (ctxOf src p)) := by
    have := le_freqTotal (build_contexts src (ctxOf src p)) (src.getD p 0) hb
    omega
  exact ⟨hb, normalize_frequencies_pos _ _ hb hcount,
    normalized_cfreq_bound _ htotc _ hb⟩

/-! Order-1 encoder loop structure and state bounds. -/

theorem encode1Steps_nil (F cF : Nat → Nat → Nat) (S : Nat → Nat) :
    encode1Steps F cF [] S = (S, []) := rfl

theorem encode1Steps_cons (F cF : Nat → Nat → Nat) (j c s : Nat)
    (tl : List (Nat × Nat × Nat)) (S : Nat → Nat) :
    encode1Steps F cF ((j, c, s) :: tl) S =
      ((encode1Steps F cF tl
          (setf S j (update (normalize (S j) (F c s)).2 (F c s) (cF c s)))).1,
       (normalize (S j) (F c s)).1 ++
         (encode1Steps F cF tl
           (setf S j (update (normalize (S j) (F c s)).2 (F c s) (cF c s)))).2) := rfl

theorem encode1Steps_singleton (F cF : Nat → Nat → Nat) (j c s : Nat) (S : Nat → Nat) :
    encode1Steps F cF [(j, c, s)] S =
      (setf S j (update (normalize (S j) (F c s)).2 (F c s) (cF c s)),
       (normalize (S j) (F c s)).1) := by
  rw [encode1Steps_cons, encode1Steps_nil, List.append_nil]

theorem encode1Steps_append (F cF : Nat → Nat → Nat) :
    ∀ (A B : List (Nat × Nat × Nat)) (S : Nat → Nat),
      encode1Steps F cF (A ++ B) S =
        ((encode1Steps F cF B (encode1Steps F cF A S).1).1,
         (encode1Steps F cF A S).2 ++ (encode1Steps F cF B (encode1Steps F cF A S).1).2) := by
  intro A
  induction A with
  | nil => intro B S; rfl
  | cons a A ih =>
    obtain ⟨j, c, s⟩ := a
    intro B S
    rw [List.cons_append, encode1Steps_cons, ih, encode1Steps_cons]
    rw [List.append_assoc]

theorem encode1Steps_bounds1 (F cF : Nat → Nat → Nat) :
    ∀ (sch : List (Nat × Nat × Nat)) (S : Nat → Nat),
      (∀ e ∈ sch, 0 < F e.2.1 e.2.2 ∧ F e.2.1 e.2.2 ≤ 4095 ∧
        cF e.2.1 e.2.2 + F e.2.1 e.2.2 ≤ 4095) →
      (∀ j, LOWER_BOUND ≤ S j ∧ S j < 2 ^ 31) →
      ∀ j, LOWER_BOUND ≤ (encode1Steps F cF sch S).1 j ∧
        (encode1Steps F cF sch S).1 j < 2 ^ 31 := by
  intro sch
  induction sch with
  | nil => intro S _ hst j; exact hst j
  | cons a sch ih =>
    obtain ⟨j, c, s⟩ := a
    intro S he hst j2
    have hh := he (j, c, s) (List.mem_cons_self _ _)
    have hfs : 0 < F c s := hh.1
    have hfle : F c s ≤ 4095 := hh.2.1
    have hcfs : cF c s + F c s ≤ 4095 := hh.2.2
    have hx0 := hst j
    have hx1U : (normalize (S j) (F c s)).2 < 2 ^ 19 * F c s := by
      have := normalize_upper (F c s) hfs (S j)
      rwa [show (LOWER_BOUND >>> 4) = 2 ^ 19 from rfl] at this
    have hx1L : 2 ^ 11 * F c s ≤ (normalize (S j) (F c s)).2 :=
      normalize_lower (F c s) hfs hfle (S j) (Or.inl hx0.1)
    have hupL : LOWER_BOUND ≤ update (normalize (S j) (F c s)).2 (F c s) (cF c s) :=
      update_lower _ _ _ hfs hx1L hx1U (by omega)
    have hupU : update (normalize (S j) (F c s)).2 (F c s) (cF c s) < 2 ^ 31 :=
      update_upper _ _ _ hfs hx1U (by omega)
    show LOWER_BOUND ≤ (encode1Steps F cF sch _).1 j2 ∧
      (encode1Steps F cF sch _).1 j2 < 2 ^ 31
    apply ih _ (fun e heb => he e (List.mem_cons_of_mem _ heb))
    intro j3
    by_cases hj3 : j3 = j
    · rw [hj3, setf_same]
      exact ⟨hupL, hupU⟩
    · rw [setf_other _ _ _ _ hj3]
      exact hst j3

/-! Single order-1 decode step undoes one encoder step. -/

theorem decode1_step_ok (F : Nat → Nat → Nat) (c b x0 : Nat) (rest : List Nat)
    (hb256 : b < 256) (hfb : 0 < F c b)
    (hcfb : cfreq (F c) b + F c b ≤ 4095)
    (hx0L : LOWER_BOUND ≤ x0) (hx0U : x0 < 2 ^ 31) :
    rans_decode_1_step F
      (update (normalize x0 (F c b)).2 (F c b) (cfreq (F c) b), c)
      ((normalize x0 (F c b)).1.reverse ++ rest) =
    Except.ok (b, (x0, b), rest) := by
  have hstep := rans_step_inversion (F c) b x0 rest hb256 hfb hcfb hx0L hx0U
  unfold rans_decode_1_step
  dsimp only
  rw [hstep.1, hstep.2.1]

theorem encSched_facts (src : List Nat) (F : Nat → Nat → Nat)
    (hpos : ∀ p, p < src.length → src.getD p 0 < 256 ∧
      0 < F (ctxOf src p) (src.getD p 0) ∧
      cfreq (F (ctxOf src p)) (src.getD p 0) + F (ctxOf src p) (src.getD p 0) ≤ 4095)
    (sch : List (Nat × Nat)) (hsch : ∀ jp ∈ sch, jp.2 < src.length) :
    ∀ e ∈ encSched src sch, 0 < F e.2.1 e.2.2 ∧ F e.2.1 e.2.2 ≤ 4095 ∧
      cfreq (F e.2.1) e.2.2 + F e.2.1 e.2.2 ≤ 4095 := by
  intro e he
  unfold encSched at he
  rw [List.mem_map] at he
  obtain ⟨jp, hjp, rfl⟩ := he
  simp only
  have hp := hsch jp (List.mem_reverse.mp hjp)
  have h := hpos jp.2 hp
  exact ⟨h.2.1, by have := h.2.2; omega, h.2.2⟩

theorem ctxOf_main_if (src : List Nat) (j i : Nat) (hj : j ≤ 3) (hiq : i < src.length / 4) :
    ctxOf src (j * (src.length / 4) + i) =
      (if i = 0 then 0 else src.getD (j * (src.length / 4) + i - 1) 0) := by
  by_cases hi0 : i = 0
  · subst hi0
    rw [if_pos rfl, show j * (src.length / 4) + 0 = j * (src.length / 4) from rfl]
    exact ctxOf_chunk_start src j hj
  · rw [if_neg hi0]
    exact ctxOf_main src j i hj (by omega) hiq

theorem take_drop_step (src : List Nat) (p k : Nat) (hp : p < src.length) :
    (src.drop p).take (k + 1) = src.getD p 0 :: (src.drop (p + 1)).take k := by
  rw [drop_cons_getD src p hp, List.take_succ_cons]

/-! The lane-3 remainder loop inverts the encoder over the remainder tail
of the schedule. -/

theorem decode1_rem_inversion (src : List Nat) (F : Nat → Nat → Nat)
    (hpos : ∀ p, p < src.length → src.getD p 0 < 256 ∧
      0 < F (ctxOf src p) (src.getD p 0) ∧
      cfreq (F (ctxOf src p)) (src.getD p 0) + F (ctxOf src p) (src.getD p 0) ≤ 4095) :
    ∀ (mr p : Nat), p + mr = src.length → 4 * (src.length / 4) ≤ p →
      ∀ (rl : Nat × Nat) (rest : List Nat),
      rl.1 = (encode1Steps F (fun c2 => cfreq (F c2))
        (encSched src (decode1RemFrom src.length p)) initStates).1 3 →
      rl.2 = (if p = 0 then 0 else src.getD (p - 1) 0) →
      ∃ rlF, decode1Rem F mr rl
          ((encode1Steps F (fun c2 => cfreq (F c2))
            (encSched src (decode1RemFrom src.length p)) initStates).2.reverse ++ rest) =
        Except.ok (src.drop p, rlF, rest) := by
  intro mr
  induction mr with
  | zero =>
    intro p hpm hp4 rl rest h1 h2
    have hp : p = src.length := by omega
    subst hp
    refine ⟨rl, ?_⟩
    rw [decode1RemFrom_end, List.drop_length]
    rfl
  | succ mr ih =>
    intro p hpm hp4 rl rest h1 h2
    have hpn : p < src.length := by omega
    have hfacts := hpos p hpn
    have hesch : encSched src (decode1RemFrom src.length p) =
        encSched src (decode1RemFrom src.length (p + 1)) ++
          [(3, ctxOf src p, src.getD p 0)] := by
      rw [decode1RemFrom_step src.length p hpn, encSched_cons]
    have happ := encode1Steps_append F (fun c2 => cfreq (F c2))
      (encSched src (decode1RemFrom src.length (p + 1)))
      [(3, ctxOf src p, src.getD p 0)] initStates
    have hsingle := encode1Steps_singleton F (fun c2 => cfreq (F c2)) 3 (ctxOf src p)
      (src.getD p 0)
      (encode1Steps F (fun c2 => cfreq (F c2))
        (encSched src (decode1RemFrom src.length (p + 1))) initStates).1
    have hbnds := encode1Steps_bounds1 F (fun c2 => cfreq (F c2))
      (encSched src (decode1RemFrom src.length (p + 1))) initStates
      (encSched_facts src F hpos _ (decode1RemFrom_pos src.length (p + 1)))
      initStates_bounds 3
    have hEfull : encode1Steps F (fun c2 => cfreq (F c2))
        (encSched src (decode1RemFrom src.length p)) initStates =
        (setf (encode1Steps F (fun c2 => cfreq (F c2))
            (encSched src (decode1RemFrom src.length (p + 1))) initStates).1 3
          (update (normalize ((encode1Steps F (fun c2 => cfreq (F c2))
              (encSched src (decode1RemFrom src.length (p + 1))) initStates).1 3)
            (F (ctxOf src p) (src.getD p 0))).2
            (F (ctxOf src p) (src.getD p 0)) (cfreq (F (ctxOf src p)) (src.getD p 0))),
         (encode1Steps F (fun c2 => cfreq (F c2))
            (encSched src (decode1RemFrom src.length (p + 1))) initStates).2 ++
           (normalize ((encode1Steps F (fun c2 => cfreq (F c2))
              (encSched src (decode1RemFrom src.length (p + 1))) initStates).1 3)
            (F (ctxOf src p) (src.getD p 0))).1) := by
      rw [hesch, happ, hsingle]
    have hrl : rl =
        (update (normalize ((encode1Steps F (fun c2 => cfreq (F c2))
            (encSched src (decode1RemFrom src.length (p + 1))) initStates).1 3)
          (F (ctxOf src p) (src.getD p 0))).2
          (F (ctxOf src p) (src.getD p 0)) (cfreq (F (ctxOf src p)) (src.getD p 0)),
         ctxOf src p) := by
      refine Prod.ext ?_ ?_
      · rw [h1, hEfull]
        dsimp only
        exact setf_same _ _ _
      · dsimp only
        rw [ctxOf_rem src p hp4]
        exact h2
    obtain ⟨rlF, hrec⟩ := ih (p + 1) (by omega) (by omega)
      ((encode1Steps F (fun c2 => cfreq (F c2))
        (encSched src (decode1RemFrom src.length (p + 1))) initStates).1 3, src.getD p 0)
      rest rfl (by dsimp only; rw [if_neg (Nat.succ_ne_zero p)]; rfl)
    refine ⟨rlF, ?_⟩
    rw [hEfull]
    dsimp only
    rw [List.reverse_append, List.append_assoc]
    simp only [decode1Rem]
    rw [hrl]
    rw [decode1_step_ok F (ctxOf src p) (src.getD p 0)
      ((encode1Steps F (fun c2 => cfreq (F c2))
        (encSched src (decode1RemFrom src.length (p + 1))) initStates).1 3)
      ((encode1Steps F (fun c2 => cfreq (F c2))
        (encSched src (decode1RemFrom src.length (p + 1))) initStates).2.reverse ++ rest)
      hfacts.1 hfacts.2.1 hfacts.2.2 hbnds.1 hbnds.2]
    dsimp only
    rw [hrec]
    dsimp only
    rw [← drop_cons_getD src p hpn]

theorem ctxOf_lane0 (src : List Nat) (i : Nat) (hiq : i < src.length / 4) :
    ctxOf src i = (if i = 0 then 0 else src.getD (i - 1) 0) := by
  have h := ctxOf_main_if src 0 i (by omega) hiq
  rwa [show 0 * (src.length / 4) + i = i from by omega] at h

theorem ctxOf_lane1 (src : List Nat) (i : Nat) (hiq : i < src.length / 4) :
    ctxOf src (src.length / 4 + i) =
      (if i = 0 then 0 else src.getD (src.length / 4 + i - 1) 0) := by
  have h := ctxOf_main_if src 1 i (by omega) hiq
  rwa [show 1 * (src.length / 4) + i = src.length / 4 + i from by omega] at h

theorem ctxOf_lane2 (src : List Nat) (i : Nat) (hiq : i < src.length / 4) :
    ctxOf src (2 * (src.length / 4) + i) =
      (if i = 0 then 0 else src.getD (2 * (src.length / 4) + i - 1) 0) :=
  ctxOf_main_if src 2 i (by omega) hiq

theorem ctxOf_lane3 (src : List Nat) (i : Nat) (hiq : i < src.length / 4) :
    ctxOf src (3 * (src.length / 4) + i) =
      (if i = 0 then 0 else src.getD (3 * (src.length / 4) + i - 1) 0) :=
  ctxOf_main_if src 3 i (by omega) hiq

/-! The interleaved main loop inverts the encoder over the main fragment
of the schedule, four lanes per iteration. -/

theorem decode1_main_inversion (src : List Nat) (F : Nat → Nat → Nat)
    (hpos : ∀ p, p < src.length → src.getD p 0 < 256 ∧
      0 < F (ctxOf src p) (src.getD p 0) ∧
      cfreq (F (ctxOf src p)) (src.getD p 0) + F (ctxOf src p) (src.getD p 0) ≤ 4095) :
    ∀ (m i : Nat), i + m = src.length / 4 →
      ∀ (lanes : Nat → Nat × Nat) (rest : List Nat),
      (∀ j, j < 4 → (lanes j).1 =
        (encode1Steps F (fun cc => cfreq (F cc))
          (encSched src (decode1ScheduleFrom src.length i)) initStates).1 j) →
      (lanes 0).2 = (if i = 0 then 0 else src.getD (i - 1) 0) →
      (lanes 1).2 = (if i = 0 then 0 else src.getD (src.length / 4 + i - 1) 0) →
      (lanes 2).2 = (if i = 0 then 0 else src.getD (2 * (src.length / 4) + i - 1) 0) →
      (lanes 3).2 = (if i = 0 then 0 else src.getD (3 * (src.length / 4) + i - 1) 0) →
      ∃ lanesF,
        decode1Main F m lanes
          ((encode1Steps F (fun cc => cfreq (F cc))
            (encSched src (decode1ScheduleFrom src.length i)) initStates).2.reverse ++ rest) =
        Except.ok
          (((src.drop i).take (src.length / 4 - i),
            (src.drop (src.length / 4 + i)).take (src.length / 4 - i),
            (src.drop (2 * (src.length / 4) + i)).take (src.length / 4 - i),
            (src.drop (3 * (src.length / 4) + i)).take (src.length / 4 - i)),
           lanesF,
           (encode1Steps F (fun cc => cfreq (F cc))
             (encSched src (decode1ScheduleFrom src.length (src.length / 4)))
             initStates).2.reverse ++ rest) ∧
        (lanesF 3).1 = (encode1Steps F (fun cc => cfreq (F cc))
          (encSched src (decode1ScheduleFrom src.length (src.length / 4))) initStates).1 3 ∧
        (lanesF 3).2 = (if src.length / 4 = 0 then 0
          else src.getD (3 * (src.length / 4) + src.length / 4 - 1) 0) := by
  intro m
  induction m with
  | zero =>
    intro i him lanes rest hstate hlast0 hlast1 hlast2 hlast3
    have hiq : i = src.length / 4 := by omega
    subst hiq
    refine ⟨lanes, ?_, hstate 3 (by omega), hlast3⟩
    rw [Nat.sub_self]
    rfl
  | succ m ih =>
    intro i him lanes rest hstate hlast0 hlast1 hlast2 hlast3
    have hi : i < src.length / 4 := by omega
    have h4q : 4 * (src.length / 4) ≤ src.length := by
      have := Nat.div_mul_le_self src.length 4
      omega
    have hqn : src.length / 4 ≤ src.length := Nat.div_le_self _ _
    have hp0n : i < src.length := by omega
    have hp1n : src.length / 4 + i < src.length := by omega
    have hp2n : 2 * (src.length / 4) + i < src.length := by omega
    have hp3n : 3 * (src.length / 4) + i < src.length := by omega
    have hf0 := hpos i hp0n
    have hf1 := hpos (src.length / 4 + i) hp1n
    have hf2 := hpos (2 * (src.length / 4) + i) hp2n
    have hf3 := hpos (3 * (src.length / 4) + i) hp3n
    have hcl0 := ctxOf_lane0 src i hi
    have hcl1 := ctxOf_lane1 src i hi
    have hcl2 := ctxOf_lane2 src i hi
    have hcl3 := ctxOf_lane3 src i hi
    set c0 := ctxOf src i with hc0d
    set b0 := src.getD i 0 with hb0d
    set c1 := ctxOf src (src.length / 4 + i) with hc1d
    set b1 := src.getD (src.length / 4 + i) 0 with hb1d
    set c2 := ctxOf src (2 * (src.length / 4) + i) with hc2d
    set b2 := src.getD (2 * (src.length / 4) + i) 0 with hb2d
    set c3 := ctxOf src (3 * (src.length / 4) + i) with hc3d
    set b3 := src.getD (3 * (src.length / 4) + i) 0 with hb3d
    set A0 := encSched src (decode1ScheduleFrom src.length (i + 1)) with hA0d
    set EP := encode1Steps F (fun cc => cfreq (F cc)) A0 initStates with hEPd
    set ED := encode1Steps F (fun cc => cfreq (F cc)) (A0 ++ [(3, c3, b3)]) initStates
      with hEDd
    set EC := encode1Steps F (fun cc => cfreq (F cc)) ((A0 ++ [(3, c3, b3)]) ++ [(2, c2, b2)])
      initStates with hECd
    set EB := encode1Steps F (fun cc => cfreq (F cc))
      (((A0 ++ [(3, c3, b3)]) ++ [(2, c2, b2)]) ++ [(1, c1, b1)]) initStates with hEBd
    set EA := encode1Steps F (fun cc => cfreq (F cc))
      (encSched src (decode1ScheduleFrom src.length i)) initStates with hEAd
    have hne01 : (0 : Nat) ≠ 1 := by omega
    have hne02 : (0 : Nat) ≠ 2 := by omega
    have hne03 : (0 : Nat) ≠ 3 := by omega
    have hne12 : (1 : Nat) ≠ 2 := by omega
    have hne13 : (1 : Nat) ≠ 3 := by omega
    have hne23 : (2 : Nat) ≠ 3 := by omega
    have hne10 : (1 : Nat) ≠ 0 := by omega
    have hne20 : (2 : Nat) ≠ 0 := by omega
    have hne21 : (2 : Nat) ≠ 1 := by omega
    have hne30 : (3 : Nat) ≠ 0 := by omega
    have hne31 : (3 : Nat) ≠ 1 := by omega
    have hne32 : (3 : Nat) ≠ 2 := by omega
    have hesch : encSched src (decode1ScheduleFrom src.length i) =
        (((A0 ++ [(3, c3, b3)]) ++ [(2, c2, b2)]) ++ [(1, c1, b1)]) ++ [(0, c0, b0)] := by
      rw [decode1ScheduleFrom_step src.length i hi, encSched_append, encSched_four, ← hA0d]
      dsimp only
      rw [← hc0d, ← hb0d, ← hc1d, ← hb1d, ← hc2d, ← hb2d, ← hc3d, ← hb3d]
      simp only [List.append_assoc, List.cons_append, List.nil_append]
    have hbEP := encode1Steps_bounds1 F (fun cc => cfreq (F cc)) A0 initStates
      (encSched_facts src F hpos (decode1ScheduleFrom src.length (i + 1))
        (decode1ScheduleFrom_pos src.length (i + 1)))
      initStates_bounds
    have hED2 : ED = (setf EP.1 3
        (update (normalize (EP.1 3) (F c3 b3)).2 (F c3 b3) (cfreq (F c3) b3)),
        EP.2 ++ (normalize (EP.1 3) (F c3 b3)).1) := by
      rw [hEDd, encode1Steps_append, encode1Steps_singleton, ← hEPd]
    have hD2v : ED.1 2 = EP.1 2 := by
      rw [hED2]
      dsimp only
      exact setf_other _ _ _ _ hne23
    have hD1v : ED.1 1 = EP.1 1 := by
      rw [hED2]
      dsimp only
      exact setf_other _ _ _ _ hne13
    have hD0v : ED.1 0 = EP.1 0 := by
      rw [hED2]
      dsimp only
      exact setf_other _ _ _ _ hne03
    have hEC2 : EC = (setf ED.1 2
        (update (normalize (EP.1 2) (F c2 b2)).2 (F c2 b2) (cfreq (F c2) b2)),
        ED.2 ++ (normalize (EP.1 2) (F c2 b2)).1) := by
      rw [hECd, encode1Steps_append, encode1Steps_singleton, ← hEDd, hD2v]
    have hC1v : EC.1 1 = EP.1 1 := by
      rw [hEC2]
      dsimp only
      rw [setf_other _ _ _ _ hne12]
      exact hD1v
    have hC0v : EC.1 0 = EP.1 0 := by
      rw [hEC2]
      dsimp only
      rw [setf_other _ _ _ _ hne02]
      exact hD0v
    have hEB2 : EB = (setf EC.1 1
        (update (normalize (EP.1 1) (F c1 b1)).2 (F c1 b1) (cfreq (F c1) b1)),
        EC.2 ++ (normalize (EP.1 1) (F c1 b1)).1) := by
      rw [hEBd, encode1Steps_append, encode1Steps_singleton, ← hECd, hC1v]
    have hB0v : EB.1 0 = EP.1 0 := by
      rw [hEB2]
      dsimp only
      rw [setf_other _ _ _ _ hne01]
      exact hC0v
    have hEA2 : EA = (setf EB.1 0
        (update (normalize (EP.1 0) (F c0 b0)).2 (F c0 b0) (cfreq (F c0) b0)),
        EB.2 ++ (normalize (EP.1 0) (F c0 b0)).1) := by
      rw [hEAd, hesch, encode1Steps_append, encode1Steps_singleton, ← hEBd, hB0v]
    have hv0 : EA.1 0 = update (normalize (EP.1 0) (F c0 b0)).2 (F c0 b0) (cfreq (F c0) b0) := by
      rw [hEA2]
      dsimp only
      exact setf_same _ _ _
    have hv1 : EA.1 1 = update (normalize (EP.1 1) (F c1 b1)).2 (F c1 b1) (cfreq (F c1) b1) := by
      rw [hEA2]
      dsimp only
      rw [setf_other _ _ _ _ hne10, hEB2]
      dsimp only
      exact setf_same _ _ _
    have hv2 : EA.1 2 = update (normalize (EP.1 2) (F c2 b2)).2 (F c2 b2) (cfreq (F c2) b2) := by
      rw [hEA2]
      dsimp only
      rw [setf_other _ _ _ _ hne20, hEB2]
      dsimp only
      rw [setf_other _ _ _ _ hne21, hEC2]
      dsimp only
      exact setf_same _ _ _
    have hv3 : EA.1 3 = update (normalize (EP.1 3) (F c3 b3)).2 (F c3 b3) (cfreq (F c3) b3) := by
      rw [hEA2]
      dsimp only
      rw [setf_other _ _ _ _ hne30, hEB2]
      dsimp only
      rw [setf_other _ _ _ _ hne31, hEC2]
      dsimp only
      rw [setf_other _ _ _ _ hne32, hED2]
      dsimp only
      exact setf_same _ _ _
    have h2A : EA.2 = (((EP.2 ++ (normalize (EP.1 3) (F c3 b3)).1) ++
        (normalize (EP.1 2) (F c2 b2)).1) ++ (normalize (EP.1 1) (F c1 b1)).1) ++
        (normalize (EP.1 0) (F c0 b0)).1 := by
      rw [hEA2]
      dsimp only
      rw [hEB2]
      dsimp only
      rw [hEC2]
      dsimp only
      rw [hED2]
    have hlane0 : lanes 0 = (update (normalize (EP.1 0) (F c0 b0)).2 (F c0 b0)
        (cfreq (F c0) b0), c0) := by
      refine Prod.ext ?_ ?_
      · rw [hstate 0 (by omega)]
        dsimp only
        exact hv0
      · rw [hlast0]
        show _ = c0
        rw [hc0d]
        exact hcl0.symm
    have hlane1 : lanes 1 = (update (normalize (EP.1 1) (F c1 b1)).2 (F c1 b1)
        (cfreq (F c1) b1), c1) := by
      refine Prod.ext ?_ ?_
      · rw [hstate 1 (by omega)]
        dsimp only
        exact hv1
      · rw [hlast1]
        show _ = c1
        rw [hc1d]
        exact hcl1.symm
    have hlane2 : lanes 2 = (update (normalize (EP.1 2) (F c2 b2)).2 (F c2 b2)
        (cfreq (F c2) b2), c2) := by
      refine Prod.ext ?_ ?_
      · rw [hstate 2 (by omega)]
        dsimp only
        exact hv2
      · rw [hlast2]
        show _ = c2
        rw [hc2d]
        exact hcl2.symm
    have hlane3 : lanes 3 = (update (normalize (EP.1 3) (F c3 b3)).2 (F c3 b3)
        (cfreq (F c3) b3), c3) := by
      refine Prod.ext ?_ ?_
      · rw [hstate 3 (by omega)]
        dsimp only
        exact hv3
      · rw [hlast3]
        show _ = c3
        rw [hc3d]
        exact hcl3.symm
    have hd0 := decode1_step_ok F c0 b0 (EP.1 0)
      ((normalize (EP.1 1) (F c1 b1)).1.reverse ++ ((normalize (EP.1 2) (F c2 b2)).1.reverse ++
        ((normalize (EP.1 3) (F c3 b3)).1.reverse ++ (EP.2.reverse ++ rest))))
      hf0.1 hf0.2.1 hf0.2.2 (hbEP 0).1 (hbEP 0).2
    have hd1 := decode1_step_ok F c1 b1 (EP.1 1)
      ((normalize (EP.1 2) (F c2 b2)).1.reverse ++
        ((normalize (EP.1 3) (F c3 b3)).1.reverse ++ (EP.2.reverse ++ rest)))
      hf1.1 hf1.2.1 hf1.2.2 (hbEP 1).1 (hbEP 1).2
    have hd2 := decode1_step_ok F c2 b2 (EP.1 2)
      ((normalize (EP.1 3) (F c3 b3)).1.reverse ++ (EP.2.reverse ++ rest))
      hf2.1 hf2.2.1 hf2.2.2 (hbEP 2).1 (hbEP 2).2
    have hd3 := decode1_step_ok F c3 b3 (EP.1 3) (EP.2.reverse ++ rest)
      hf3.1 hf3.2.1 hf3.2.2 (hbEP 3).1 (hbEP 3).2
    have hstate2 : ∀ j, j < 4 →
        ((setf (setf (setf (setf lanes 0 (EP.1 0, b0)) 1 (EP.1 1, b1)) 2 (EP.1 2, b2))
          3 (EP.1 3, b3)) j).1 =
        (encode1Steps F (fun cc => cfreq (F cc))
          (encSched src (decode1ScheduleFrom src.length (i + 1))) initStates).1 j := by
      intro j hj
      rw [← hA0d, ← hEPd]
      interval_cases j
      · rw [setf_other _ _ _ _ hne03, setf_other _ _ _ _ hne02, setf_other _ _ _ _ hne01,
          setf_same]
      · rw [setf_other _ _ _ _ hne13, setf_other _ _ _ _ hne12, setf_same]
      · rw [setf_other _ _ _ _ hne23, setf_same]
      · rw [setf_same]
    have hL0 : ((setf (setf (setf (setf lanes 0 (EP.1 0, b0)) 1 (EP.1 1, b1)) 2 (EP.1 2, b2))
        3 (EP.1 3, b3)) 0).2 = (if i + 1 = 0 then 0 else src.getD (i + 1 - 1) 0) := by
      rw [if_neg (Nat.succ_ne_zero i)]
      rw [setf_other _ _ _ _ hne03, setf_other _ _ _ _ hne02, setf_other _ _ _ _ hne01,
        setf_same]
      exact hb0d
    have hL1 : ((setf (setf (setf (setf lanes 0 (EP.1 0, b0)) 1 (EP.1 1, b1)) 2 (EP.1 2, b2))
        3 (EP.1 3, b3)) 1).2 =
        (if i + 1 = 0 then 0 else src.getD (src.length / 4 + (i + 1) - 1) 0) := by
      rw [if_neg (Nat.succ_ne_zero i)]
      rw [setf_other _ _ _ _ hne13, setf_other _ _ _ _ hne12, setf_same]
      rw [show src.length / 4 + (i + 1) - 1 = src.length / 4 + i from by omega]
    have hL2 : ((setf (setf (setf (setf lanes 0 (EP.1 0, b0)) 1 (EP.1 1, b1)) 2 (EP.1 2, b2))
        3 (EP.1 3, b3)) 2).2 =
        (if i + 1 = 0 then 0 else src.getD (2 * (src.length / 4) + (i + 1) - 1) 0) := by
      rw [if_neg (Nat.succ_ne_zero i)]
      rw [setf_other _ _ _ _ hne23, setf_same]
      rw [show 2 * (src.length / 4) + (i + 1) - 1 = 2 * (src.length / 4) + i from by omega]
    have hL3 : ((setf (setf (setf (setf lanes 0 (EP.1 0, b0)) 1 (EP.1 1, b1)) 2 (EP.1 2, b2))
        3 (EP.1 3, b3)) 3).2 =
        (if i + 1 = 0 then 0 else src.getD (3 * (src.length / 4) + (i + 1) - 1) 0) := by
      rw [if_neg (Nat.succ_ne_zero i)]
      rw [setf_same]
      rw [show 3 * (src.length / 4) + (i + 1) - 1 = 3 * (src.length / 4) + i from by omega]
    obtain ⟨lanesF, hrec, hstF, hlastF⟩ := ih (i + 1) (by omega)
      (setf (setf (setf (setf lanes 0 (EP.1 0, b0)) 1 (EP.1 1, b1)) 2 (EP.1 2, b2))
        3 (EP.1 3, b3)) rest hstate2 hL0 hL1 hL2 hL3
    rw [← hA0d, ← hEPd] at hrec
    refine ⟨lanesF, ?_, hstF, hlastF⟩
    rw [h2A]
    simp only [List.reverse_append, List.append_assoc]
    simp only [decode1Main]
    rw [hlane0, hd0]
    dsimp only
    rw [hlane1, hd1]
    dsimp only
    rw [hlane2, hd2]
    dsimp only
    rw [hlane3, hd3]
    dsimp only
    rw [hrec]
    dsimp only
    rw [show src.length / 4 - i = src.length / 4 - (i + 1) + 1 from by omega]
    rw [take_drop_step src i _ hp0n, take_drop_step src (src.length / 4 + i) _ hp1n,
      take_drop_step src (2 * (src.length / 4) + i) _ hp2n,
      take_drop_step src (3 * (src.length / 4) + i) _ hp3n]
    rfl

/-! Order-1 frequency-table facts feeding the serialized-table round
trip: a zero-total context row normalizes to the all-zero row, and rows
of out-of-range contexts are all-zero. -/

theorem normalize_frequencies_zero (counts : Nat → Nat) (h : freqTotal counts = 0) :
    normalize_frequencies counts = fun _ => 0 := by
  unfold normalize_frequencies
  rw [if_pos h]

theorem zip_first_big (src : List Nat) (hB : ∀ b ∈ src, b < 256) (c s : Nat)
    (hc : 256 ≤ c) : (src.zip src.tail).count (c, s) = 0 := by
  rw [List.count_eq_zero]
  intro hmem
  have h1 := (List.of_mem_zip hmem).1
  have := hB c h1
  omega

theorem build_contexts_big (src : List Nat) (hB : ∀ b ∈ src, b < 256) (c : Nat)
    (hc : 256 ≤ c) : freqTotal (build_contexts src c) = 0 := by
  unfold freqTotal
  apply List.sum_eq_zero
  intro x hx
  rw [List.mem_map] at hx
  obtain ⟨s, _, rfl⟩ := hx
  have hc0 : ¬(c = 0 ∧ src ≠ []) := fun h2 => by have := h2.1; omega
  simp only [build_contexts]
  rw [zip_first_big src hB c s hc, if_neg hc0]
  rfl

theorem order1_table_le (src : List Nat) (c s : Nat) :
    normalize_contexts (build_contexts src) c s ≤ 4095 := by
  simp only [normalize_contexts]
  rcases Nat.eq_zero_or_pos (freqTotal (build_contexts src c)) with h | h
  · rw [normalize_frequencies_zero _ h]
    exact Nat.zero_le _
  · exact normalize_frequencies_le _ h s

theorem order1_table_zero (src : List Nat) (c : Nat)
    (h : freqTotal (normalize_contexts (build_contexts src) c) = 0) :
    normalize_contexts (build_contexts src) c = fun _ => 0 := by
  simp only [normalize_contexts] at h ⊢
  rcases Nat.eq_zero_or_pos (freqTotal (build_contexts src c)) with h2 | h2
  · exact normalize_frequencies_zero _ h2
  · exfalso
    have h3 := normalize_frequencies_total (build_contexts src c) h2
    rw [h] at h3
    exact absurd h3 (by decide)

theorem order1_table_cdom (src : List Nat) (hB : ∀ b ∈ src, b < 256) (c : Nat)
    (hc : 256 ≤ c) : normalize_contexts (build_contexts src) c = fun _ => 0 := by
  simp only [normalize_contexts]
  exact normalize_frequencies_zero _ (build_contexts_big src hB c hc)

/-! The order-1 body round trip: decode of the encoded body returns the
four chunks of the source. -/

theorem rans_decode_1_roundtrip (src : List Nat) (hB : ∀ b ∈ src, b < 256) :
    rans_decode_1
      (write_frequencies_1 (normalize_contexts (build_contexts src)) ++
        (write_states (encode1Steps (normalize_contexts (build_contexts src))
          (fun c => cfreq (normalize_contexts (build_contexts src) c))
          (encode1Schedule src) initStates).1 ++
        (encode1Steps (normalize_contexts (build_contexts src))
          (fun c => cfreq (normalize_contexts (build_contexts src) c))
          (encode1Schedule src) initStates).2.reverse))
      src.length =
    Except.ok ((src.take (src.length / 4),
      (src.drop (src.length / 4)).take (src.length / 4),
      (src.drop (2 * (src.length / 4))).take (src.length / 4),
      src.drop (3 * (src.length / 4))), []) := by
  set NF := normalize_contexts (build_contexts src) with hNFd
  set E := encode1Steps NF (fun c => cfreq (NF c)) (encode1Schedule src) initStates with hEd
  have hpos := order1_pos_facts src hB
  have hle : ∀ c s, NF c s ≤ 4095 := fun c s => order1_table_le src c s
  have hdom : ∀ c s, 256 ≤ s → NF c s = 0 := by
    intro c s hs
    show normalize_contexts (build_contexts src) c s = 0
    simp only [normalize_contexts]
    exact normalize_frequencies_dom _ s hs
  have hzero : ∀ c, c < 256 → freqTotal (NF c) = 0 → NF c = fun _ => 0 :=
    fun c _ h => order1_table_zero src c h
  have hcdom : ∀ c, 256 ≤ c → NF c = fun _ => 0 :=
    fun c hc => order1_table_cdom src hB c hc
  have hschpos : ∀ jp ∈ decode1Schedule src.length, jp.2 < src.length := by
    intro jp hjp
    exact decode1ScheduleFrom_pos src.length 0 jp (by rwa [decode1ScheduleFrom_zero])
  have hfacts := encSched_facts src NF hpos (decode1Schedule src.length) hschpos
  have hEb : ∀ j, LOWER_BOUND ≤ E.1 j ∧ E.1 j < 2 ^ 31 :=
    encode1Steps_bounds1 NF (fun c => cfreq (NF c)) (encode1Schedule src) initStates
      hfacts initStates_bounds
  unfold rans_decode_1
  rw [read_write_frequencies_1 NF hle hdom hzero hcdom]
  dsimp only
  rw [read_write_states E.1 (by have := (hEb 0).2; omega) (by have := (hEb 1).2; omega)
    (by have := (hEb 2).2; omega) (by have := (hEb 3).2; omega)]
  dsimp only
  have hlanes : ∀ j, j < 4 →
      ((fun j => ((if j = 0 then E.1 0 else if j = 1 then E.1 1
        else if j = 2 then E.1 2 else E.1 3), (0 : Nat))) j).1 =
      (encode1Steps NF (fun cc => cfreq (NF cc))
        (encSched src (decode1ScheduleFrom src.length 0)) initStates).1 j := by
    intro j hj
    rw [decode1ScheduleFrom_zero, ← encode1Schedule_eq, ← hEd]
    interval_cases j <;> rfl
  obtain ⟨lanesF, hmain, hstF, hlastF⟩ :=
    decode1_main_inversion src NF hpos (src.length / 4) 0 (Nat.zero_add _)
      (fun j => ((if j = 0 then E.1 0 else if j = 1 then E.1 1
        else if j = 2 then E.1 2 else E.1 3), (0 : Nat))) [] hlanes rfl rfl rfl rfl
  rw [decode1ScheduleFrom_zero, ← encode1Schedule_eq, ← hEd,
    decode1ScheduleFrom_end] at hmain
  rw [decode1ScheduleFrom_end] at hstF
  simp only [Nat.add_zero, Nat.sub_zero, List.drop_zero] at hmain
  have h4q : 4 * (src.length / 4) ≤ src.length := by
    have := Nat.div_mul_le_self src.length 4
    omega
  have h2 : (lanesF 3).2 = (if 4 * (src.length / 4) = 0 then 0
      else src.getD (4 * (src.length / 4) - 1) 0) := by
    rw [hlastF]
    by_cases hq : src.length / 4 = 0
    · rw [if_pos hq, if_pos (show 4 * (src.length / 4) = 0 from by omega)]
    · rw [if_neg hq, if_neg (show ¬4 * (src.length / 4) = 0 from by omega),
        show 3 * (src.length / 4) + src.length / 4 - 1 = 4 * (src.length / 4) - 1 from by
          omega]
  obtain ⟨rlF, hrem⟩ := decode1_rem_inversion src NF hpos
    (src.length - 3 * (src.length / 4) - src.length / 4) (4 * (src.length / 4))
    (by omega) (le_refl _) (lanesF 3) [] hstF h2
  rw [show E.2.reverse = E.2.reverse ++ [] from (List.append_nil _).symm]
  rw [hmain]
  dsimp only
  rw [hrem]
  dsimp only
  rw [show (4 : Nat) * (src.length / 4) = 3 * (src.length / 4) + src.length / 4 from by
        omega,
    ← List.drop_drop, List.take_append_drop]

/-! Top-level order-1 round trip. -/

theorem rans_roundtrip_1 (src : List Nat) (hB : ∀ b ∈ src, b < 256) :
    rans_decode (rans_encode Order.One src) src.length = Except.ok src := by
  show rans_decode (rans_encode_1 src) src.length = Except.ok src
  simp only [rans_encode_1]
  simp only [List.cons_append, List.nil_append, List.append_assoc]
  simp only [rans_decode]
  rw [readLe32_le32_any]
  dsimp only
  rw [readLe32_le32_any]
  dsimp only
  rw [if_neg (show ¬(1 : Nat) = 0 from by decide)]
  rw [if_pos trivial]
  rw [rans_decode_1_roundtrip src hB]
  dsimp only
  have h1 : (src.drop (2 * (src.length / 4))).take (src.length / 4) ++
      src.drop (3 * (src.length / 4)) = src.drop (2 * (src.length / 4)) := by
    rw [show (3 : Nat) * (src.length / 4) = 2 * (src.length / 4) + src.length / 4 from by
          omega,
      ← List.drop_drop, List.take_append_drop]
  have h2 : (src.drop (src.length / 4)).take (src.length / 4) ++
      src.drop (2 * (src.length / 4)) = src.drop (src.length / 4) := by
    rw [show (2 : Nat) * (src.length / 4) = src.length / 4 + src.length / 4 from by omega,
      ← List.drop_drop, List.take_append_drop]
  simp only [List.append_assoc]
  rw [h1, h2, List.take_append_drop]

/-- Claim C1: for every byte buffer B and every order in {Zero, One},
decoding the output of encode(order, B) with declared output length
len(B) yields exactly B. -/
theorem c1_roundtrip (order : Order) (B : List Nat) (hB : ∀ b ∈ B, b < 256) :
    rans_decode (rans_encode order B) B.length = Except.ok B := by
  cases order with
  | Zero => exact rans_roundtrip_0 B hB
  | One => exact rans_roundtrip_1 B hB

theorem c1_roundtrip_witness :
    (∀ b ∈ [72, 101, 108, 108, 111], b < 256) ∧
      rans_decode (rans_encode Order.One [72, 101, 108, 108, 111])
          ([72, 101, 108, 108, 111] : List Nat).length =
        Except.ok [72, 101, 108, 108, 111] :=
  ⟨by decide, c1_roundtrip Order.One [72, 101, 108, 108, 111] (by decide)⟩

end NoodlesVerify
